import Mathlib

/-!
# Verification of `lib_layered_config` core semantics

This file is a shallow embedding of the core logic of the
`lib_layered_config` Python library, together with proofs about it.

Embedded components (translated from the Python source, file by file):

* `src/lib_layered_config/application/merge.py` — the merge engine
  (`merge_layers`, `_merge_layer`, `_merge_mapping`, `_merge_branch`,
  `_set_scalar`, `_clear_branch`, `_dotted_key`).
* `src/lib_layered_config/domain/config.py` — the `Config` value object
  (`Config.get`, `Config.origin`, `Config.with_overrides`,
  `_merge_top_level`, `_resolve_dotted_path`).
* `src/lib_layered_config/core.py` — the per-file loading step of the
  composition root (`_load_entry`, `_load_files`, `LayerLoadError`).
* `src/lib_layered_config/adapters/path_resolvers/default.py` — the layer
  directory enumeration (`_collect_layer`, `_ALLOWED_EXTENSIONS`).

Modelling conventions:

* Python `dict`s (insertion ordered, unique string keys) are modelled as
  association lists `List (String × α)`; `dget`/`dset`/`dpop` translate
  dictionary lookup, assignment (which keeps the position of an existing
  key and appends a fresh key) and `dict.pop`.
* Configuration values are the inductive `Value`: scalars (strings,
  integers, booleans, `None`), lists, and nested mappings.  Python floats
  are further opaque scalars and are not needed by any claim; the merge
  and lookup logic treats all non-mapping values uniformly.
* `copy.deepcopy` on values is the identity in this functional model;
  aliasing-related properties are outside the embedding.
* Python string operations used by the source are translated explicitly:
  `".".join` as `dotted_join`, `str.split(".")` as `splitDot`,
  `str.startswith` as `strStartsWith`.
-/

/-- Origin metadata of a merged key, translating the `SourceInfo` typed
dictionary of `domain/config.py` (`layer`, `path`, `key`). -/
structure SourceInfo where
  layer : String
  path : Option String
  key : String
deriving Repr, DecidableEq

/-- Configuration values: the universe of data stored in layer payloads
and merged trees.  Interior nodes are `map` (a Python `dict` in insertion
order); everything else is treated by the merge engine as a scalar leaf. -/
inductive Value where
  | str (s : String)
  | int (n : Int)
  | bool (b : Bool)
  | null
  | list (l : List Value)
  | map (entries : List (String × Value))
deriving Repr

/-- `True`/`isinstance(v, Mapping)` test on a value. -/
def Value.isMap : Value → Bool
  | .map _ => true
  | _ => false

abbrev Dict := List (String × Value)
abbrev Meta := List (String × SourceInfo)

/-- Python `d.get(k)` / `k in d` on an insertion-ordered dictionary. -/
def dget {α : Type} : List (String × α) → String → Option α
  | [], _ => none
  | (k', v) :: rest, k => if k' = k then some v else dget rest k

/-- Python `d[k] = v`: replaces the value of an existing key in place,
appends a fresh key at the end. -/
def dset {α : Type} : List (String × α) → String → α → List (String × α)
  | [], k, v => [(k, v)]
  | (k', v') :: rest, k, v => if k' = k then (k, v) :: rest else (k', v') :: dset rest k v

/-- Python `d.pop(k, None)`: removes the key if present. -/
def dpop {α : Type} : List (String × α) → String → List (String × α)
  | [], _ => []
  | (k', v') :: rest, k => if k' = k then rest else (k', v') :: dpop rest k

/-- The keys of a dictionary, in insertion order. -/
def dkeys {α : Type} (d : List (String × α)) : List String := d.map Prod.fst

/-- Python `s.startswith(pre)`. -/
def strStartsWith (s pre : String) : Bool := pre.data.isPrefixOf s.data

/-- Python `".".join(parts)`. -/
def dotted_join : List String → String
  | [] => ""
  | [s] => s
  | s :: rest => s ++ "." ++ dotted_join rest

/-- Translation of `_dotted_key` (`merge.py`):
`".".join([*segments, key]) if segments else key`. -/
def dotted_key (segments : List String) (key : String) : String :=
  if segments.isEmpty then key else dotted_join (segments ++ [key])

/-- Translation of `_clear_branch` (`merge.py`): drop every provenance
entry whose key is `pre` itself or starts with `pre + "."`.  (The Python
loop pops matching keys; keeping the non-matching entries in order is the
same operation on an insertion-ordered dictionary.) -/
def clear_branch (meta : Meta) (pre : String) : Meta :=
  meta.filter (fun kv => !(kv.1 == pre || strStartsWith kv.1 (pre ++ ".")))

/-- Translation of `_set_scalar` (`merge.py`): clear stale provenance at
`dotted`, assign the scalar, and record the new provenance entry. -/
def set_scalar (target : Dict) (meta : Meta) (key : String) (value : Value)
    (dotted : String) (layer : String) (path : Option String) : Dict × Meta :=
  (dset target key value,
   dset (clear_branch meta dotted) dotted ⟨layer, path, dotted⟩)

/-- `isinstance(existing, Mapping)` on the result of `target.get(key)`. -/
def isMappingOpt : Option Value → Bool
  | some (.map _) => true
  | _ => false

/-- Translation of `_merge_mapping` (`merge.py`), with the body of
`_merge_branch` inlined at its single call site (the split between the
two Python functions is kept as the pattern split below; inlining is
needed so the recursion is over one function).

For each `(key, value)` of `incoming` in order:
* a mapping value goes through the `_merge_branch` logic — an empty
  mapping either no-ops (existing mapping at top level) or resets the
  branch; a non-empty mapping merges into a clone of the existing
  mapping, or into a fresh one after clearing provenance; a freshly
  created container that ends up empty is popped again;
* any other value goes through `_set_scalar`. -/
def merge_mapping : Dict → Meta → Dict → String → Option String → List String → Dict × Meta
  | target, meta, [], _, _, _ => (target, meta)
  | target, meta, (key, .map []) :: rest, layer, path, segments =>
      -- `_merge_branch`, `if not value` case
      if isMappingOpt (dget target key) && segments.isEmpty then
        merge_mapping target meta rest layer path segments
      else
        merge_mapping (dset target key (.map []))
          (clear_branch meta (dotted_key segments key)) rest layer path segments
  | target, meta, (key, .map (e :: es)) :: rest, layer, path, segments =>
      -- `_merge_branch`, non-empty mapping
      (match dget target key with
       | some (.map em) =>
           (match merge_mapping em meta (e :: es) layer path (segments ++ [key]) with
            | (container, meta') =>
                merge_mapping (dset target key (.map container)) meta' rest layer path segments)
       | _ =>
           (match merge_mapping [] (clear_branch meta (dotted_key segments key))
                    (e :: es) layer path (segments ++ [key]) with
            | ([], meta') =>
                -- `created_new and not container`: the key is popped again
                merge_mapping (dpop target key) meta' rest layer path segments
            | (container, meta') =>
                merge_mapping (dset target key (.map container)) meta' rest layer path segments))
  | target, meta, (key, value) :: rest, layer, path, segments =>
      -- `_set_scalar`
      (match set_scalar target meta key value (dotted_key segments key) layer path with
       | (target', meta') => merge_mapping target' meta' rest layer path segments)
termination_by _ _ inc _ _ _ => sizeOf inc
decreasing_by all_goals (simp_wf; try omega)

/-- Translation of `_merge_layer` (`merge.py`).  The Python function
deep-clones the payload before merging; cloning is the identity here. -/
def merge_layer (target : Dict) (meta : Meta) (payload : Dict)
    (layer : String) (path : Option String) : Dict × Meta :=
  merge_mapping target meta payload layer path []

/-- Translation of `merge_layers` (`merge.py`): fold the layer payloads
(lowest precedence first) into an accumulator, tracking provenance. -/
def merge_layers (layers : List (String × Dict × Option String)) : Dict × Meta :=
  layers.foldl (fun acc L => merge_layer acc.1 acc.2 L.2.1 L.1 L.2.2) ([], [])

/-- Python `dotted.split(".")` (note `"".split(".") == [""]`). -/
def splitDotAux : List Char → List Char → List String
  | [], acc => [String.mk acc.reverse]
  | c :: rest, acc =>
      if c = '.' then String.mk acc.reverse :: splitDotAux rest []
      else splitDotAux rest (c :: acc)

/-- Python `dotted.split(".")`. -/
def splitDot (s : String) : List String := splitDotAux s.data []

/-- The loop body of `_resolve_dotted_path` (`domain/config.py`): walk
the already-split path, returning the default as soon as a segment is
missing or a non-mapping is reached. -/
def resolve_dotted_walk : Value → List String → Value → Value
  | current, [], _ => current
  | .map d, part :: rest, default =>
      (match dget d part with
       | some v => resolve_dotted_walk v rest default
       | none => default)
  | _, _ :: _, default => default

/-- Translation of `_resolve_dotted_path` (`domain/config.py`). -/
def resolve_dotted_path (source : Dict) (dotted : String) (default : Value) : Value :=
  resolve_dotted_walk (.map source) (splitDot dotted) default

/-- Translation of `_merge_top_level` (`domain/config.py`):
`dict(base)` then `updated.update(overrides)`. -/
def merge_top_level (base : Dict) (overrides : Dict) : Dict :=
  overrides.foldl (fun acc kv => dset acc kv.1 kv.2) base

/-- The `Config` value object (`domain/config.py`): merged data plus the
provenance index.  The `MappingProxyType` wrappers only enforce
immutability, which is implicit here. -/
structure Config where
  data : Dict
  meta : Meta
deriving Repr

/-- Translation of `Config.get`: dotted-path lookup with a default. -/
def Config.get (c : Config) (key : String) (default : Value) : Value :=
  resolve_dotted_path c.data key default

/-- Translation of `Config.origin`: `self._meta.get(key)`. -/
def Config.origin (c : Config) (key : String) : Option SourceInfo :=
  dget c.meta key

/-- Translation of `Config.with_overrides`. -/
def Config.with_overrides (c : Config) (overrides : Dict) : Config :=
  ⟨merge_top_level c.data overrides, c.meta⟩

/-- Specification-style resolver: the value stored in a tree at a path of
key segments, if any.  Used to state what a payload or a merged tree
holds at a path; `resolve_dotted_walk` is proved equivalent to it. -/
def resolveV : Value → List String → Option Value
  | v, [] => some v
  | .map d, k :: ks =>
      (match dget d k with
       | some v => resolveV v ks
       | none => none)
  | _, _ :: _ => none

/-- `resolveV` starting from a dictionary root. -/
def resolveD (d : Dict) (p : List String) : Option Value := resolveV (.map d) p

/-! ## Composition-root per-file loading (`core.py`) -/

/-- Outcome of one `FileLoader.load` call (an external collaborator):
a parsed mapping, a `NotFound` failure, or an `InvalidFormat` failure
carrying the parser's message. -/
inductive LoadResult where
  | ok (data : Dict)
  | notFound
  | invalidFormat (msg : String)
deriving Repr

/-- Translation of `_load_entry` (`core.py`), with the file loader's
outcome supplied as a value: `NotFound` yields no entry, `InvalidFormat`
raises `LayerLoadError` with the layer name and file path in the message
(modelled as `Except.error`), an empty mapping yields no entry, and
otherwise the `(layer, data, path)` entry is produced. -/
def load_entry (layer : String) (path : String) (result : LoadResult) :
    Except String (Option (String × Dict × Option String)) :=
  match result with
  | .notFound => .ok none
  | .invalidFormat msg =>
      .error ("Failed to load " ++ layer ++ " layer file " ++ path ++ ": " ++ msg)
  | .ok data => if data.isEmpty then .ok none else .ok (some (layer, data, some path))

/-- Translation of the loop of `_load_files` (`core.py`): each path is
paired with its loader's outcome (`none` when `_FILE_LOADERS` has no
loader for the suffix, in which case `_load_entry` returns `None`).
A raised `LayerLoadError` propagates, discarding all collected entries. -/
def load_files (layer : String) (files : List (String × Option LoadResult)) :
    Except String (List (String × Dict × Option String)) :=
  match files with
  | [] => .ok []
  | (_, none) :: rest => load_files layer rest
  | (path, some res) :: rest =>
      match load_entry layer path res with
      | .error e => .error e
      | .ok none => load_files layer rest
      | .ok (some entry) =>
          match load_files layer rest with
          | .error e => .error e
          | .ok es => .ok (entry :: es)

/-! ## Layer directory enumeration (`adapters/path_resolvers/default.py`) -/

/-- `_ALLOWED_EXTENSIONS` from `default.py`. -/
def _ALLOWED_EXTENSIONS : List String := [".toml", ".yaml", ".yml", ".json"]

/-- One entry of a directory listing: its filename and whether it is a
regular file (`Path.is_file`). -/
structure DirEntry where
  name : String
  isFile : Bool
deriving Repr, DecidableEq

/-- Abstract state of a layer's base directory: whether `config.toml`
exists as a file, and the listing of the `config.d` subdirectory
(`none` when the directory does not exist). -/
structure LayerBase where
  hasConfigToml : Bool
  configD : Option (List DirEntry)
deriving Repr

/-- Python `str.lower()` (ASCII-adequate for the fixed extension list). -/
def strLower (s : String) : String := ⟨s.data.map Char.toLower⟩

/-- Scan for the chars from the last `'.'` on (dot included). -/
def sufScan : List Char → Option (List Char) → Option (List Char)
  | [], acc => acc
  | c :: rest, acc =>
      if c = '.' then sufScan rest (some ['.'])
      else sufScan rest (acc.map (fun l => l ++ [c]))

/-- `pathlib.Path(name).suffix`: the extension from the last dot of the
filename, empty when the only dot leads the name or trails it. -/
def pathSuffix (name : String) : String :=
  match name.data with
  | [] => ""
  | _ :: rest =>
      match sufScan rest none with
      | none => ""
      | some suf => if suf = ['.'] then "" else String.mk suf

/-- Translation of `_collect_layer` (`default.py`): the canonical
`config.toml` when it exists as a file, followed by the files directly
inside `config.d` whose lower-cased suffix is allow-listed, in sorted
order (Python sorts the `Path` objects, which share the directory prefix,
so the order is lexicographic on filenames).  Results are returned as
filenames relative to the base directory. -/
def collect_layer (base : LayerBase) : List String :=
  (if base.hasConfigToml then ["config.toml"] else []) ++
  (match base.configD with
   | none => []
   | some entries =>
       ((entries.mergeSort (fun a b => decide (a.name ≤ b.name))).filter
          (fun e => e.isFile && _ALLOWED_EXTENSIONS.contains (strLower (pathSuffix e.name)))).map
         (fun e => e.name))

/-! ## Step equations for `merge_mapping`

The definition above is compiled by well-founded recursion; these
equations restate its computation rules in directly usable form. -/

theorem mm_nil (t : Dict) (m : Meta) (l : String) (p : Option String) (s : List String) :
    merge_mapping t m [] l p s = (t, m) := by
  rw [merge_mapping.eq_def]

theorem mm_scalar (t : Dict) (m : Meta) (k : String) (v : Value) (rest : Dict)
    (l : String) (p : Option String) (s : List String) (hv : v.isMap = false) :
    merge_mapping t m ((k, v) :: rest) l p s =
      merge_mapping (dset t k v)
        (dset (clear_branch m (dotted_key s k)) (dotted_key s k) ⟨l, p, dotted_key s k⟩)
        rest l p s := by
  rw [merge_mapping.eq_def]
  cases v <;> simp_all [set_scalar, Value.isMap]

theorem mm_empty_noop (t : Dict) (m : Meta) (k : String) (rest : Dict)
    (l : String) (p : Option String) (s : List String)
    (h : (isMappingOpt (dget t k) && s.isEmpty) = true) :
    merge_mapping t m ((k, .map []) :: rest) l p s = merge_mapping t m rest l p s := by
  rw [merge_mapping.eq_def]
  simp [h]

theorem mm_empty_reset (t : Dict) (m : Meta) (k : String) (rest : Dict)
    (l : String) (p : Option String) (s : List String)
    (h : (isMappingOpt (dget t k) && s.isEmpty) = false) :
    merge_mapping t m ((k, .map []) :: rest) l p s =
      merge_mapping (dset t k (.map [])) (clear_branch m (dotted_key s k)) rest l p s := by
  rw [merge_mapping.eq_def]
  simp [h]

theorem mm_branch_existing (t : Dict) (m : Meta) (k : String) (e : String × Value)
    (es : List (String × Value)) (rest : Dict) (l : String) (p : Option String)
    (s : List String) (em : Dict) (h : dget t k = some (.map em)) :
    merge_mapping t m ((k, .map (e :: es)) :: rest) l p s =
      merge_mapping (dset t k (.map (merge_mapping em m (e :: es) l p (s ++ [k])).1))
        (merge_mapping em m (e :: es) l p (s ++ [k])).2 rest l p s := by
  rw [merge_mapping.eq_def]
  simp [h]

theorem mm_branch_new (t : Dict) (m : Meta) (k : String) (e : String × Value)
    (es : List (String × Value)) (rest : Dict) (l : String) (p : Option String)
    (s : List String) (h : isMappingOpt (dget t k) = false) :
    merge_mapping t m ((k, .map (e :: es)) :: rest) l p s =
      merge_mapping
        (match (merge_mapping [] (clear_branch m (dotted_key s k)) (e :: es) l p (s ++ [k])).1 with
         | [] => dpop t k
         | container => dset t k (.map container))
        (merge_mapping [] (clear_branch m (dotted_key s k)) (e :: es) l p (s ++ [k])).2
        rest l p s := by
  rw [merge_mapping.eq_def]
  cases hg : dget t k with
  | none =>
      simp [hg]
      rcases merge_mapping [] (clear_branch m (dotted_key s k)) (e :: es) l p (s ++ [k]) with ⟨c, m'⟩
      cases c <;> simp
  | some v =>
      cases v <;> simp_all [isMappingOpt] <;>
        (rcases merge_mapping [] (clear_branch m (dotted_key s k)) (e :: es) l p (s ++ [k]) with ⟨c, m'⟩ <;> cases c <;> simp)

/-- Splitting off the first incoming item: merging `x :: rest` is merging
the singleton `[x]` and then `rest`. -/
theorem mm_cons_split (t : Dict) (m : Meta) (x : String × Value) (rest : Dict)
    (l : String) (p : Option String) (s : List String) :
    merge_mapping t m (x :: rest) l p s =
      merge_mapping (merge_mapping t m [x] l p s).1 (merge_mapping t m [x] l p s).2
        rest l p s := by
  rcases x with ⟨k, v⟩
  cases v with
  | map entries =>
      cases entries with
      | nil =>
          cases h : (isMappingOpt (dget t k) && s.isEmpty) with
          | true => rw [mm_empty_noop _ _ _ _ _ _ _ h, mm_empty_noop _ _ _ _ _ _ _ h, mm_nil]
          | false => rw [mm_empty_reset _ _ _ _ _ _ _ h, mm_empty_reset _ _ _ _ _ _ _ h, mm_nil]
      | cons e es =>
          cases hg : dget t k with
          | some v' =>
              cases v' with
              | map em =>
                  rw [mm_branch_existing _ _ _ _ _ _ _ _ _ _ hg,
                      mm_branch_existing _ _ _ _ _ _ _ _ _ _ hg, mm_nil]
              | str a =>
                  rw [mm_branch_new _ _ _ _ _ _ _ _ _ (by simp [hg, isMappingOpt]),
                      mm_branch_new _ _ _ _ _ _ _ _ _ (by simp [hg, isMappingOpt]), mm_nil]
              | int a =>
                  rw [mm_branch_new _ _ _ _ _ _ _ _ _ (by simp [hg, isMappingOpt]),
                      mm_branch_new _ _ _ _ _ _ _ _ _ (by simp [hg, isMappingOpt]), mm_nil]
              | bool a =>
                  rw [mm_branch_new _ _ _ _ _ _ _ _ _ (by simp [hg, isMappingOpt]),
                      mm_branch_new _ _ _ _ _ _ _ _ _ (by simp [hg, isMappingOpt]), mm_nil]
              | null =>
                  rw [mm_branch_new _ _ _ _ _ _ _ _ _ (by simp [hg, isMappingOpt]),
                      mm_branch_new _ _ _ _ _ _ _ _ _ (by simp [hg, isMappingOpt]), mm_nil]
              | list a =>
                  rw [mm_branch_new _ _ _ _ _ _ _ _ _ (by simp [hg, isMappingOpt]),
                      mm_branch_new _ _ _ _ _ _ _ _ _ (by simp [hg, isMappingOpt]), mm_nil]
          | none =>
              rw [mm_branch_new _ _ _ _ _ _ _ _ _ (by simp [hg, isMappingOpt]),
                  mm_branch_new _ _ _ _ _ _ _ _ _ (by simp [hg, isMappingOpt]), mm_nil]
  | str a => rw [mm_scalar _ _ _ _ _ _ _ _ (by simp [Value.isMap]),
          mm_scalar _ _ _ _ _ _ _ _ (by simp [Value.isMap]), mm_nil]
  | int a => rw [mm_scalar _ _ _ _ _ _ _ _ (by simp [Value.isMap]),
          mm_scalar _ _ _ _ _ _ _ _ (by simp [Value.isMap]), mm_nil]
  | bool a => rw [mm_scalar _ _ _ _ _ _ _ _ (by simp [Value.isMap]),
          mm_scalar _ _ _ _ _ _ _ _ (by simp [Value.isMap]), mm_nil]
  | null => rw [mm_scalar _ _ _ _ _ _ _ _ (by simp [Value.isMap]),
          mm_scalar _ _ _ _ _ _ _ _ (by simp [Value.isMap]), mm_nil]
  | list a => rw [mm_scalar _ _ _ _ _ _ _ _ (by simp [Value.isMap]),
          mm_scalar _ _ _ _ _ _ _ _ (by simp [Value.isMap]), mm_nil]

/-! ## Dictionary lemmas -/

theorem dget_dset_self {α : Type} (d : List (String × α)) (k : String) (v : α) :
    dget (dset d k v) k = some v := by
  induction d with
  | nil => simp [dget, dset]
  | cons kv rest ih =>
      rcases kv with ⟨k', v'⟩
      by_cases h : k' = k <;> simp [dget, dset, h, ih]

theorem dget_dset_ne {α : Type} (d : List (String × α)) (k k' : String) (v : α)
    (h : k' ≠ k) : dget (dset d k v) k' = dget d k' := by
  induction d with
  | nil => simp [dget, dset, Ne.symm h]
  | cons kv rest ih =>
      rcases kv with ⟨k0, v0⟩
      by_cases h0 : k0 = k
      · subst h0
        simp [dget, dset, Ne.symm h]
      · by_cases h1 : k0 = k' <;> simp [dget, dset, h0, h1, h, ih]

theorem dget_dpop_ne {α : Type} (d : List (String × α)) (k k' : String)
    (h : k' ≠ k) : dget (dpop d k) k' = dget d k' := by
  induction d with
  | nil => simp [dpop]
  | cons kv rest ih =>
      rcases kv with ⟨k0, v0⟩
      by_cases h0 : k0 = k
      · subst h0
        simp [dget, dpop, Ne.symm h]
      · by_cases h1 : k0 = k' <;> simp [dget, dpop, h0, h1, h, ih]

theorem mem_dkeys_of_dget {α : Type} {d : List (String × α)} {k : String} {v : α}
    (h : dget d k = some v) : k ∈ dkeys d := by
  induction d with
  | nil => simp [dget] at h
  | cons kv rest ih =>
      rcases kv with ⟨k0, v0⟩
      by_cases h0 : k0 = k
      · simp [dkeys, h0]
      · simp only [dget, if_neg h0] at h
        simp [dkeys, Or.inr (by simpa [dkeys] using ih h)]

theorem dget_eq_none_of_not_mem {α : Type} {d : List (String × α)} {k : String}
    (h : k ∉ dkeys d) : dget d k = none := by
  induction d with
  | nil => simp [dget]
  | cons kv rest ih =>
      rcases kv with ⟨k0, v0⟩
      simp only [dkeys, List.map_cons, List.mem_cons] at h
      push_neg at h
      simp [dget, Ne.symm h.1, ih (by simpa [dkeys] using h.2)]

theorem dget_mem {α : Type} {d : List (String × α)} {k : String} {v : α}
    (h : dget d k = some v) : (k, v) ∈ d := by
  induction d with
  | nil => simp [dget] at h
  | cons kv rest ih =>
      rcases kv with ⟨k0, v0⟩
      by_cases h0 : k0 = k
      · subst h0
        simp only [dget, if_true, eq_self_iff_true, Option.some.injEq] at h
        subst h
        exact List.mem_cons_self _ _
      · simp only [dget, if_neg h0] at h
        exact List.mem_cons_of_mem _ (ih h)

theorem dget_dpop_self {α : Type} (d : List (String × α)) (k : String)
    (h : (dkeys d).Nodup) : dget (dpop d k) k = none := by
  induction d with
  | nil => simp [dpop, dget]
  | cons kv rest ih =>
      rcases kv with ⟨k0, v0⟩
      simp only [dkeys, List.map_cons, List.nodup_cons] at h
      by_cases h0 : k0 = k
      · subst h0
        simp only [dpop, if_pos rfl]
        exact dget_eq_none_of_not_mem h.1
      · simp [dpop, dget, h0, ih h.2]

theorem dkeys_dset_mem {α : Type} (d : List (String × α)) (k : String) (v : α)
    (h : k ∈ dkeys d) : dkeys (dset d k v) = dkeys d := by
  induction d with
  | nil => simp [dkeys] at h
  | cons kv rest ih =>
      rcases kv with ⟨k0, v0⟩
      by_cases h0 : k0 = k
      · simp [dset, dkeys, h0]
      · simp only [dkeys, List.map_cons, List.mem_cons] at h
        rcases h with h | h
        · exact absurd h.symm h0
        · have ihh := ih (by simpa [dkeys] using h)
          simp only [dset, if_neg h0, dkeys, List.map_cons]
          simpa [dkeys] using ihh

theorem dkeys_dset_not_mem {α : Type} (d : List (String × α)) (k : String) (v : α)
    (h : k ∉ dkeys d) : dkeys (dset d k v) = dkeys d ++ [k] := by
  induction d with
  | nil => simp [dset, dkeys]
  | cons kv rest ih =>
      rcases kv with ⟨k0, v0⟩
      simp only [dkeys, List.map_cons, List.mem_cons] at h
      push_neg at h
      have ihh := ih (by simpa [dkeys] using h.2)
      have hne : ¬ k0 = k := fun hh => h.1 hh.symm
      simp only [dset, if_neg hne, dkeys, List.map_cons]
      simpa [dkeys] using ihh

theorem nodup_dkeys_dset {α : Type} (d : List (String × α)) (k : String) (v : α)
    (h : (dkeys d).Nodup) : (dkeys (dset d k v)).Nodup := by
  by_cases hm : k ∈ dkeys d
  · rw [dkeys_dset_mem d k v hm]; exact h
  · rw [dkeys_dset_not_mem d k v hm]
    simpa [List.nodup_append] using ⟨h, hm⟩

theorem dkeys_dpop_sublist {α : Type} (d : List (String × α)) (k : String) :
    (dkeys (dpop d k)).Sublist (dkeys d) := by
  induction d with
  | nil => simp [dpop]
  | cons kv rest ih =>
      rcases kv with ⟨k0, v0⟩
      by_cases h0 : k0 = k
      · simpa [dpop, dkeys, h0] using List.sublist_cons_self _ _
      · simpa [dpop, dkeys, h0] using ih.cons₂ k0

theorem nodup_dkeys_dpop {α : Type} (d : List (String × α)) (k : String)
    (h : (dkeys d).Nodup) : (dkeys (dpop d k)).Nodup :=
  (dkeys_dpop_sublist d k).nodup h

theorem dget_filter_key {α : Type} (d : List (String × α)) (f : String → Bool) (k : String) :
    dget (d.filter (fun kv => f kv.1)) k = if f k then dget d k else none := by
  induction d with
  | nil => simp [dget]
  | cons kv rest ih =>
      rcases kv with ⟨k0, v0⟩
      by_cases h0 : k0 = k
      · subst h0
        cases hf : f k0 <;> simp [dget, hf, ih]
      · cases hf : f k0 <;> simp [dget, hf, h0, ih]

theorem dkeys_filter_sublist {α : Type} (d : List (String × α)) (f : (String × α) → Bool) :
    (dkeys (d.filter f)).Sublist (dkeys d) :=
  (List.filter_sublist d).map Prod.fst

/-- Lookup in `clear_branch`: cleared exactly on the prefix cone. -/
theorem dget_clear_branch (m : Meta) (pre k : String) :
    dget (clear_branch m pre) k =
      if k = pre ∨ strStartsWith k (pre ++ ".") = true then none else dget m k := by
  have h := dget_filter_key m (fun k0 => !(k0 == pre || strStartsWith k0 (pre ++ "."))) k
  rw [clear_branch]
  rw [h]
  by_cases h1 : k = pre <;> by_cases h2 : strStartsWith k (pre ++ ".") = true <;>
    simp [h1, h2]

/-! ## Dotted-key string lemmas

The provenance index is keyed by dotted strings built with `_dotted_key`
and cleared with string-prefix tests; these lemmas relate those string
operations to the underlying segment lists.  They require segments free
of literal `'.'` characters — with dotted segments the dotted keys are
ambiguous (a documented limitation of the library). -/

/-- A key (or path segment) containing no literal dot. -/
def dotFree (s : String) : Prop := '.' ∉ s.data

/-- All segments of a path are dot-free. -/
def goodPath (p : List String) : Prop := ∀ s ∈ p, dotFree s

/-- Character-level version of `".".join`. -/
def charsJoin : List (List Char) → List Char
  | [] => []
  | [x] => x
  | x :: rest => x ++ '.' :: charsJoin rest

theorem charsJoin_cons (x : List Char) (rest : List (List Char)) (h : rest ≠ []) :
    charsJoin (x :: rest) = x ++ '.' :: charsJoin rest := by
  cases rest with
  | nil => exact absurd rfl h
  | cons y ys => rfl

theorem charsJoin_single (x : List Char) : charsJoin [x] = x := rfl

theorem dot_data : ("." : String).data = ['.'] := rfl

theorem dotted_join_data (l : List String) :
    (dotted_join l).data = charsJoin (l.map String.data) := by
  induction l with
  | nil => rfl
  | cons s rest ih =>
      cases rest with
      | nil => rfl
      | cons s' rest' =>
          show (s ++ "." ++ dotted_join (s' :: rest')).data = _
          rw [List.map_cons, charsJoin_cons _ _ (by simp), ← ih]
          simp [String.data_append, dot_data]

theorem dotted_key_eq (segs : List String) (k : String) :
    dotted_key segs k = dotted_join (segs ++ [k]) := by
  cases segs with
  | nil => rfl
  | cons a as => simp [dotted_key]

theorem charsJoin_append (xs ys : List (List Char)) (hx : xs ≠ []) (hy : ys ≠ []) :
    charsJoin (xs ++ ys) = charsJoin xs ++ '.' :: charsJoin ys := by
  induction xs with
  | nil => exact absurd rfl hx
  | cons x xs' ih =>
      cases xs' with
      | nil =>
          cases ys with
          | nil => exact absurd rfl hy
          | cons y ys' => rfl
      | cons x' xs'' =>
          rw [List.cons_append, charsJoin_cons _ _ (by simp),
              charsJoin_cons _ _ (by simp), ih (by simp)]
          simp

/-- Unique decomposition at the first dot of a dot-free-headed join. -/
theorem dot_head_cancel (u : List Char) : ∀ (v w w' : List Char), '.' ∉ u → '.' ∉ v →
    u ++ '.' :: w = v ++ '.' :: w' → u = v ∧ w = w' := by
  induction u with
  | nil =>
      intro v w w' _ hv h
      cases v with
      | nil => simpa using h
      | cons c v' =>
          simp only [List.nil_append, List.cons_append, List.cons.injEq] at h
          exact absurd (h.1 ▸ List.mem_cons_self _ _) hv
  | cons c u' ih =>
      intro v w w' hu hv h
      cases v with
      | nil =>
          simp only [List.cons_append, List.nil_append, List.cons.injEq] at h
          exact absurd (h.1 ▸ List.mem_cons_self _ _) hu
      | cons c' v' =>
          simp only [List.cons_append, List.cons.injEq] at h
          obtain ⟨h1, h2⟩ := h
          obtain ⟨hu', hw⟩ := ih v' w w' (fun hm => hu (List.mem_cons_of_mem _ hm))
            (fun hm => hv (List.mem_cons_of_mem _ hm)) h2
          exact ⟨by rw [h1, hu'], hw⟩

/-- Injectivity of the dotted join on dot-free segment lists. -/
theorem charsJoin_inj : ∀ (xs ys : List (List Char)),
    (∀ l ∈ xs, '.' ∉ l) → (∀ l ∈ ys, '.' ∉ l) → xs ≠ [] → ys ≠ [] →
    charsJoin xs = charsJoin ys → xs = ys := by
  intro xs
  induction xs with
  | nil => intro ys _ _ hx; exact absurd rfl hx
  | cons x xs' ih =>
      intro ys hgx hgy _ hy h
      cases ys with
      | nil => exact absurd rfl hy
      | cons y ys' =>
          cases hxs' : xs' with
          | nil =>
              cases hys' : ys' with
              | nil =>
                  subst hxs'; subst hys'
                  rw [charsJoin_single, charsJoin_single] at h
                  rw [h]
              | cons y' ys'' =>
                  subst hxs'; subst hys'
                  rw [charsJoin_single, charsJoin_cons y _ (by simp)] at h
                  have hmem : '.' ∈ x := by
                    rw [h]; exact List.mem_append_right _ (List.mem_cons_self _ _)
                  exact absurd hmem (hgx x (List.mem_cons_self _ _))
          | cons x' xs'' =>
              cases hys' : ys' with
              | nil =>
                  subst hxs'; subst hys'
                  rw [charsJoin_cons x _ (by simp), charsJoin_single] at h
                  have hmem : '.' ∈ y := by
                    rw [← h]; exact List.mem_append_right _ (List.mem_cons_self _ _)
                  exact absurd hmem (hgy y (List.mem_cons_self _ _))
              | cons y' ys'' =>
                  subst hxs'; subst hys'
                  rw [charsJoin_cons x _ (by simp), charsJoin_cons y _ (by simp)] at h
                  obtain ⟨h1, h2⟩ := dot_head_cancel x y _ _
                    (hgx x (List.mem_cons_self _ _)) (hgy y (List.mem_cons_self _ _)) h
                  have := ih (y' :: ys'')
                    (fun l hl => hgx l (List.mem_cons_of_mem _ hl))
                    (fun l hl => hgy l (List.mem_cons_of_mem _ hl))
                    (by simp) (by simp) h2
                  rw [h1, this]

/-- A dotted prefix (followed by a dot) of a dot-free join comes from a
proper prefix of the segment list. -/
theorem charsJoin_dot_prefix : ∀ (xs ys : List (List Char)),
    (∀ l ∈ xs, '.' ∉ l) → (∀ l ∈ ys, '.' ∉ l) → xs ≠ [] → ys ≠ [] →
    (charsJoin xs ++ ['.']) <+: charsJoin ys → ∃ zs, zs ≠ [] ∧ ys = xs ++ zs := by
  intro xs
  induction xs with
  | nil => intro ys _ _ hx; exact absurd rfl hx
  | cons x xs' ih =>
      intro ys hgx hgy _ hy hpre
      cases ys with
      | nil => exact absurd rfl hy
      | cons y ys' =>
          cases hxs' : xs' with
          | nil =>
              subst hxs'
              rw [charsJoin_single] at hpre
              cases hys' : ys' with
              | nil =>
                  subst hys'
                  rw [charsJoin_single] at hpre
                  have hmem : '.' ∈ y :=
                    hpre.subset (List.mem_append_right _ (List.mem_cons_self _ _))
                  exact absurd hmem (hgy y (List.mem_cons_self _ _))
              | cons y' ys'' =>
                  subst hys'
                  rw [charsJoin_cons y _ (by simp)] at hpre
                  obtain ⟨R, hR⟩ := hpre
                  rw [List.append_assoc, List.singleton_append] at hR
                  obtain ⟨h1, _⟩ := dot_head_cancel y x _ _
                    (hgy y (List.mem_cons_self _ _)) (hgx x (List.mem_cons_self _ _)) hR.symm
                  refine ⟨y' :: ys'', by simp, ?_⟩
                  rw [h1]
                  rfl
          | cons x' xs'' =>
              subst hxs'
              rw [charsJoin_cons x _ (by simp)] at hpre
              cases hys' : ys' with
              | nil =>
                  subst hys'
                  rw [charsJoin_single] at hpre
                  have hd : '.' ∈ (x ++ '.' :: charsJoin (x' :: xs'')) ++ ['.'] :=
                    List.mem_append_left _ (List.mem_append_right _ (List.mem_cons_self _ _))
                  exact absurd (hpre.subset hd) (hgy y (List.mem_cons_self _ _))
              | cons y' ys'' =>
                  subst hys'
                  rw [charsJoin_cons y _ (by simp)] at hpre
                  obtain ⟨R, hR⟩ := hpre
                  have hR' : x ++ '.' :: (charsJoin (x' :: xs'') ++ ['.'] ++ R) =
                      y ++ '.' :: charsJoin (y' :: ys'') := by
                    simpa [List.append_assoc] using hR
                  obtain ⟨h1, h2⟩ := dot_head_cancel x y _ _
                    (hgx x (List.mem_cons_self _ _)) (hgy y (List.mem_cons_self _ _)) hR'
                  have hpre' : (charsJoin (x' :: xs'') ++ ['.']) <+: charsJoin (y' :: ys'') :=
                    ⟨R, by rw [← h2]⟩
                  obtain ⟨zs, hzs, hys⟩ := ih (y' :: ys'')
                    (fun l hl => hgx l (List.mem_cons_of_mem _ hl))
                    (fun l hl => hgy l (List.mem_cons_of_mem _ hl))
                    (by simp) (by simp) hpre'
                  subst h1
                  refine ⟨zs, hzs, ?_⟩
                  rw [List.cons_append, hys]

theorem strStartsWith_iff (s pre : String) :
    strStartsWith s pre = true ↔ pre.data <+: s.data := by
  simpa [strStartsWith] using List.isPrefixOf_iff_prefix

theorem data_append_dot (s : String) : (s ++ ".").data = s.data ++ ['.'] := by
  rw [String.data_append, dot_data]

theorem cgood_of_goodPath {q : List String} (h : goodPath q) :
    ∀ l ∈ q.map String.data, '.' ∉ l := by
  intro l hl
  obtain ⟨s, hs, rfl⟩ := List.mem_map.mp hl
  exact h s hs

theorem goodPath_append {a b : List String} (ha : goodPath a) (hb : goodPath b) :
    goodPath (a ++ b) := by
  intro s hs
  rcases List.mem_append.mp hs with h | h
  · exact ha s h
  · exact hb s h

theorem goodPath_single {k : String} (h : dotFree k) : goodPath [k] := by
  intro s hs
  rw [List.mem_singleton.mp hs]
  exact h

/-- A provenance key lies in the cone of the dotted key `segs · k'`:
it is the dotted key itself or extends it past a dot.  This is exactly
the test made by `_clear_branch`. -/
def underCone (segs : List String) (k' key0 : String) : Prop :=
  key0 = dotted_key segs k' ∨ strStartsWith key0 (dotted_key segs k' ++ ".") = true

/-- Cones only shrink along recursion: a key under the cone of a deeper
dotted key is under the cone of its parent. -/
theorem cone_up {segs : List String} {k k'' key0 : String}
    (h : underCone (segs ++ [k]) k'' key0) : underCone segs k key0 := by
  have hdata : (dotted_key (segs ++ [k]) k'').data =
      (dotted_key segs k).data ++ '.' :: k''.data := by
    rw [dotted_key_eq (segs ++ [k]) k'', dotted_join_data, List.map_append,
        charsJoin_append _ _ (by simp) (by simp), dotted_key_eq segs k, dotted_join_data]
    simp [charsJoin_single]
  right
  rw [strStartsWith_iff, data_append_dot]
  rcases h with h | h
  · refine ⟨k''.data, ?_⟩
    rw [h, hdata]
    simp
  · rw [strStartsWith_iff, data_append_dot, hdata] at h
    refine List.IsPrefix.trans ?_ h
    refine ⟨k''.data ++ ['.'], ?_⟩
    simp

/-- Separation: with dot-free segments, the dotted key of a path starting
with `k` is not in the cone of a sibling key `k' ≠ k`. -/
theorem cone_sep {segs : List String} {k' k : String} {ks : List String}
    (hsegs : goodPath segs) (hk' : dotFree k') (hk : dotFree k) (hks : goodPath ks)
    (hne : k ≠ k') :
    ¬ underCone segs k' (dotted_join (segs ++ k :: ks)) := by
  have hgl : ∀ l ∈ (segs ++ k :: ks).map String.data, '.' ∉ l :=
    cgood_of_goodPath (goodPath_append hsegs (by
      intro s hs
      rcases List.mem_cons.mp hs with rfl | hs
      · exact hk
      · exact hks s hs))
  have hgr : ∀ l ∈ (segs ++ [k']).map String.data, '.' ∉ l :=
    cgood_of_goodPath (goodPath_append hsegs (goodPath_single hk'))
  intro h
  rcases h with h | h
  · have hdata : charsJoin ((segs ++ k :: ks).map String.data) =
        charsJoin ((segs ++ [k']).map String.data) := by
      have := congrArg String.data h
      rwa [dotted_join_data, dotted_key_eq, dotted_join_data] at this
    have := charsJoin_inj _ _ hgl hgr (by simp) (by simp) hdata
    rw [List.map_append, List.map_append] at this
    have := List.append_cancel_left this
    simp only [List.map_cons, List.map_nil, List.cons.injEq] at this
    exact hne (String.ext this.1)
  · rw [strStartsWith_iff, data_append_dot, dotted_key_eq, dotted_join_data,
        dotted_join_data] at h
    obtain ⟨zs, _, hzs⟩ := charsJoin_dot_prefix _ _ hgr hgl (by simp) (by simp) h
    rw [List.map_append, List.map_append] at hzs
    rw [List.append_assoc] at hzs
    have := List.append_cancel_left hzs
    simp only [List.map_cons, List.map_nil, List.singleton_append, List.cons.injEq] at this
    exact hne (String.ext this.1)

/-! ## Well-formedness of trees and payloads -/

/-- Every mapping node reachable through mappings has unique keys.
(`dict` keys are unique in Python; association lists model this.) -/
def vNod : Value → Prop
  | .map d => (dkeys d).Nodup ∧ ∀ kv ∈ d, vNod kv.2
  | _ => True
termination_by v => sizeOf v
decreasing_by
  rename_i kv hkv
  have h1 := List.sizeOf_lt_of_mem hkv
  cases kv
  simp_wf
  simp at h1
  omega

/-- Every mapping node reachable through mappings has unique, dot-free
keys.  Dot-free keys are the well-formedness condition under which dotted
provenance keys are unambiguous. -/
def vGood : Value → Prop
  | .map d => (dkeys d).Nodup ∧ ∀ kv ∈ d, dotFree kv.1 ∧ vGood kv.2
  | _ => True
termination_by v => sizeOf v
decreasing_by
  rename_i kv hkv
  have h1 := List.sizeOf_lt_of_mem hkv
  cases kv
  simp_wf
  simp at h1
  omega

theorem vNod_map (d : Dict) :
    vNod (.map d) ↔ (dkeys d).Nodup ∧ ∀ kv ∈ d, vNod kv.2 := by
  rw [vNod]

theorem vNod_not_map {v : Value} (h : v.isMap = false) : vNod v := by
  cases v with
  | map d => simp [Value.isMap] at h
  | str s => rw [vNod] <;> simp
  | int n => rw [vNod] <;> simp
  | bool b => rw [vNod] <;> simp
  | null => rw [vNod] <;> simp
  | list l => rw [vNod] <;> simp

theorem vGood_map (d : Dict) :
    vGood (.map d) ↔ (dkeys d).Nodup ∧ ∀ kv ∈ d, dotFree kv.1 ∧ vGood kv.2 := by
  rw [vGood]

theorem vGood_not_map {v : Value} (h : v.isMap = false) : vGood v := by
  cases v with
  | map d => simp [Value.isMap] at h
  | str s => rw [vGood] <;> simp
  | int n => rw [vGood] <;> simp
  | bool b => rw [vGood] <;> simp
  | null => rw [vGood] <;> simp
  | list l => rw [vGood] <;> simp

/-- Tree-level well-formedness of a dictionary (unique keys at every
mapping node reachable through mappings). -/
abbrev dNod (d : Dict) : Prop := vNod (.map d)

/-- Payload well-formedness: unique and dot-free keys at every mapping
node reachable through mappings. -/
abbrev dGood (d : Dict) : Prop := vGood (.map d)

theorem dNod_nodup {d : Dict} (h : dNod d) : (dkeys d).Nodup := ((vNod_map d).mp h).1

theorem dNod_val {d : Dict} {k : String} {v : Value} (h : dNod d)
    (hv : dget d k = some v) : vNod v :=
  ((vNod_map d).mp h).2 _ (dget_mem hv)

theorem dGood_nodup {d : Dict} (h : dGood d) : (dkeys d).Nodup := ((vGood_map d).mp h).1

theorem dGood_key {d : Dict} {k : String} {v : Value} (h : dGood d)
    (hv : dget d k = some v) : dotFree k :=
  (((vGood_map d).mp h).2 _ (dget_mem hv)).1

theorem dGood_val {d : Dict} {k : String} {v : Value} (h : dGood d)
    (hv : dget d k = some v) : vGood v :=
  (((vGood_map d).mp h).2 _ (dget_mem hv)).2

theorem vGood_vNod : ∀ (v : Value), vGood v → vNod v := by
  intro v
  induction v using vGood.induct with
  | case1 d =>
      intro h
      rename_i ih
      rw [vGood_map] at h
      rw [vNod_map]
      exact ⟨h.1, fun kv hkv => ih kv hkv (h.2 kv hkv).2⟩
  | _ => intro h; rw [vNod] <;> simp_all

/-! ## Resolution lemmas -/

theorem resolveV_cons_some {d : Dict} {k : String} {ks : List String} {w : Value}
    (h : dget d k = some w) : resolveV (.map d) (k :: ks) = resolveV w ks := by
  simp [resolveV, h]

theorem resolveV_cons_none {d : Dict} {k : String} {ks : List String}
    (h : dget d k = none) : resolveV (.map d) (k :: ks) = none := by
  simp [resolveV, h]

theorem resolveV_not_map {v : Value} {k : String} {ks : List String}
    (h : v.isMap = false) : resolveV v (k :: ks) = none := by
  cases v <;> simp [Value.isMap] at h ⊢ <;> rfl

theorem resolveV_scalar_nil {v : Value} {p : List String}
    (hv : v.isMap = false) (h : resolveV v p = some v') (hp : p ≠ []) : False := by
  cases p with
  | nil => exact hp rfl
  | cons k ks => rw [resolveV_not_map hv] at h; exact Option.noConfusion h

theorem isMap_iff {w : Value} : w.isMap = true ↔ ∃ em, w = .map em := by
  cases w <;> simp [Value.isMap]

/-- A path that resolves in a well-formed payload is dot-free. -/
theorem goodPath_of_resolve : ∀ (p : List String) (d : Dict) (v : Value), dGood d →
    resolveD d p = some v → goodPath p := by
  intro p
  induction p with
  | nil => intro d v _ _ s hs; simp at hs
  | cons k ks ih =>
      intro d v hd h
      cases hw : dget d k with
      | none => rw [resolveD, resolveV_cons_none hw] at h; exact Option.noConfusion h
      | some w =>
          rw [resolveD, resolveV_cons_some hw] at h
          intro s hs
          rcases List.mem_cons.mp hs with rfl | hs
          · exact dGood_key hd hw
          · by_cases hwm : w.isMap = true
            · obtain ⟨em, rfl⟩ := isMap_iff.mp hwm
              exact ih em v (dGood_val hd hw) h s hs
            · cases ks with
              | nil => simp at hs
              | cons a b =>
                  rw [resolveV_not_map (by simpa using hwm)] at h
                  exact Option.noConfusion h

/-- The walking loop of `_resolve_dotted_path` computes the
specification-style resolution with a default. -/
theorem resolve_walk_getD : ∀ (parts : List String) (cur : Value) (default : Value),
    resolve_dotted_walk cur parts default = (resolveV cur parts).getD default := by
  intro parts
  induction parts with
  | nil => intro cur default; cases cur <;> rfl
  | cons k ks ih =>
      intro cur default
      cases cur with
      | map d =>
          cases hw : dget d k with
          | none => simp [resolve_dotted_walk, resolveV, hw]
          | some w => simp [resolve_dotted_walk, resolveV, hw, ih]
      | str a => rfl
      | int a => rfl
      | bool a => rfl
      | null => rfl
      | list a => rfl

/-! ## Claim theorems: Config value object -/

/-- Claim C5: for every `Config`, dotted path string and default value,
`Config.get` splits the path on `"."` (`splitDot`) and walks the tree
segment by segment (`resolveV`): it returns the stored value when the
walk completes and the default exactly when a segment is absent or a
non-mapping is reached early.  The function is total, so no exception is
possible. -/
theorem config_get_walks_split_path (c : Config) (key : String) (default : Value) :
    Config.get c key default = (resolveV (.map c.data) (splitDot key)).getD default := by
  rw [Config.get, resolve_dotted_path, resolve_walk_getD]

/-- Claim C10: whenever a dotted path fully resolves to a stored value,
`Config.get` returns that stored value — whatever the default is, and in
particular for stored `None`/`False`/`0`/empty values; the default can
only be returned on structural absence. -/
theorem config_get_returns_stored_value (c : Config) (key : String) (v : Value)
    (h : resolveV (.map c.data) (splitDot key) = some v) (default : Value) :
    Config.get c key default = v := by
  rw [Config.get, resolve_dotted_path, resolve_walk_getD, h]
  rfl

/-- Witness for C10: a stored `None` (`Value.null`) is returned instead
of either of two distinct non-null defaults. -/
theorem config_get_returns_stored_value_witness :
    Config.get ⟨[("a", .map [("b", .null)])], []⟩ "a.b" (.str "fallback") = .null ∧
    Config.get ⟨[("a", .map [("b", .null)])], []⟩ "a.b" (.int 7) = .null := by
  constructor
  · exact config_get_returns_stored_value ⟨[("a", .map [("b", .null)])], []⟩ "a.b" .null
      (by simp [splitDot, splitDotAux, resolveV, dget]) (.str "fallback")
  · exact config_get_returns_stored_value ⟨[("a", .map [("b", .null)])], []⟩ "a.b" .null
      (by simp [splitDot, splitDotAux, resolveV, dget]) (.int 7)

/-- Lookup after `_merge_top_level`: an override key wins, any other key
keeps the base value (for override mappings with unique keys, as Python
dictionaries have). -/
theorem merge_top_level_dget : ∀ (o : Dict) (base : Dict), (dkeys o).Nodup →
    ∀ k, dget (merge_top_level base o) k =
      (match dget o k with
       | some v => some v
       | none => dget base k) := by
  intro o
  induction o with
  | nil => intro base _ k; simp [merge_top_level, dget]
  | cons kv rest ih =>
      intro base hnod k
      rcases kv with ⟨k0, v0⟩
      simp only [dkeys, List.map_cons, List.nodup_cons] at hnod
      have step : merge_top_level base ((k0, v0) :: rest) =
          merge_top_level (dset base k0 v0) rest := rfl
      rw [step, ih (dset base k0 v0) hnod.2 k]
      by_cases hk : k0 = k
      · subst hk
        have : dget rest k0 = none :=
          dget_eq_none_of_not_mem (by simpa [dkeys] using hnod.1)
        simp [dget, this, dget_dset_self]
      · simp [dget, hk, dget_dset_ne _ _ _ _ (Ne.symm hk)]

/-- Claim C8: `Config.with_overrides` shallow-replaces top-level keys:
a key present in the overrides maps to exactly the override value (no
deep merge), a key absent from the overrides keeps the old value, and
the provenance index is carried over unchanged.  (The original `Config`
is untouched — the operation builds a new value.)  The override mapping
has unique keys, as every Python `dict` does. -/
theorem with_overrides_shallow_replace (c : Config) (o : Dict)
    (ho : (dkeys o).Nodup) :
    (∀ k v, dget o k = some v → dget (c.with_overrides o).data k = some v) ∧
    (∀ k, dget o k = none → dget (c.with_overrides o).data k = dget c.data k) ∧
    (c.with_overrides o).meta = c.meta := by
  refine ⟨?_, ?_, rfl⟩
  · intro k v hk
    rw [Config.with_overrides, merge_top_level_dget o c.data ho k, hk]
  · intro k hk
    rw [Config.with_overrides, merge_top_level_dget o c.data ho k, hk]

/-- Witness for C8: overriding `a` wholesale replaces its mapping, `b`
is kept, provenance carried over. -/
theorem with_overrides_shallow_replace_witness :
    (∀ k v, dget [("a", Value.int 2)] k = some v →
      dget ((Config.mk [("a", .map [("x", .int 1)]), ("b", .int 3)]
        [("a.x", ⟨"app", none, "a.x"⟩)]).with_overrides [("a", Value.int 2)]).data k = some v) ∧
    (∀ k, dget [("a", Value.int 2)] k = none →
      dget ((Config.mk [("a", .map [("x", .int 1)]), ("b", .int 3)]
        [("a.x", ⟨"app", none, "a.x"⟩)]).with_overrides [("a", Value.int 2)]).data k =
        dget [("a", .map [("x", .int 1)]), ("b", .int 3)] k) ∧
    ((Config.mk [("a", .map [("x", .int 1)]), ("b", .int 3)]
        [("a.x", ⟨"app", none, "a.x"⟩)]).with_overrides [("a", Value.int 2)]).meta =
      [("a.x", ⟨"app", none, "a.x"⟩)] :=
  with_overrides_shallow_replace
    (Config.mk [("a", .map [("x", .int 1)]), ("b", .int 3)] [("a.x", ⟨"app", none, "a.x"⟩)])
    [("a", Value.int 2)] (by simp [dkeys])

/-! ## Claim theorems: empty-mapping behaviour (C2) -/

/-- Claim C2 (counterexample): on `merge([{"a":{"x":1}}, {"a":{}}])` the
code does NOT leave `"a"` as an empty mapping with the `a.x` provenance
cleared.  `_merge_branch` returns early when the incoming mapping is
empty, the existing value is a mapping and the segment stack is empty,
so the top-level empty mapping is a no-op (the library's own test suite
relies on this: "empty mappings do not remove previously merged
content"). -/
theorem empty_mapping_toplevel_counterexample :
    ¬ (dget (merge_layers [("app", [("a", .map [("x", .int 1)])], none),
                           ("env", [("a", .map [])], none)]).1 "a" = some (.map []) ∧
       dget (merge_layers [("app", [("a", .map [("x", .int 1)])], none),
                           ("env", [("a", .map [])], none)]).2 "a.x" = none) := by
  have h1 : merge_layer [] [] [("a", Value.map [("x", Value.int 1)])] "app" none =
      ([("a", Value.map [("x", Value.int 1)])],
       [("a.x", ⟨"app", none, "a.x"⟩)]) := by
    simp [merge_layer, mm_nil, mm_scalar, mm_empty_noop, mm_empty_reset,
      mm_branch_existing, mm_branch_new, dget, dset, dpop,
      clear_branch, dotted_key, dotted_join, strStartsWith, isMappingOpt, Value.isMap]
  have h2 : merge_layer [("a", Value.map [("x", Value.int 1)])]
      [("a.x", ⟨"app", none, "a.x"⟩)] [("a", Value.map [])] "env" none =
      ([("a", Value.map [("x", Value.int 1)])],
       [("a.x", ⟨"app", none, "a.x"⟩)]) := by
    simp [merge_layer, mm_nil, mm_scalar, mm_empty_noop, mm_empty_reset,
      mm_branch_existing, mm_branch_new, dget, dset, dpop,
      clear_branch, dotted_key, dotted_join, strStartsWith, isMappingOpt, Value.isMap]
  have hm : merge_layers [("app", [("a", Value.map [("x", Value.int 1)])], none),
                          ("env", [("a", Value.map [])], none)] =
      ([("a", Value.map [("x", Value.int 1)])],
       [("a.x", ⟨"app", none, "a.x"⟩)]) := by
    simp [merge_layers, h1, h2]
  rw [hm]
  simp [dget]

/-- Claim C2 (amended): on `merge([{"a":{"x":1}}, {"a":{}}])` the merged
tree keeps `"a"` as `{"x": 1}` and the provenance entry for `a.x`
remains — a top-level empty mapping over an existing mapping is a no-op
rather than a reset. -/
theorem empty_mapping_toplevel_noop :
    merge_layers [("app", [("a", .map [("x", .int 1)])], none),
                  ("env", [("a", .map [])], none)] =
    ([("a", .map [("x", .int 1)])], [("a.x", ⟨"app", none, "a.x"⟩)]) := by
  have h1 : merge_layer [] [] [("a", Value.map [("x", Value.int 1)])] "app" none =
      ([("a", Value.map [("x", Value.int 1)])],
       [("a.x", ⟨"app", none, "a.x"⟩)]) := by
    simp [merge_layer, mm_nil, mm_scalar, mm_empty_noop, mm_empty_reset,
      mm_branch_existing, mm_branch_new, dget, dset, dpop,
      clear_branch, dotted_key, dotted_join, strStartsWith, isMappingOpt, Value.isMap]
  have h2 : merge_layer [("a", Value.map [("x", Value.int 1)])]
      [("a.x", ⟨"app", none, "a.x"⟩)] [("a", Value.map [])] "env" none =
      ([("a", Value.map [("x", Value.int 1)])],
       [("a.x", ⟨"app", none, "a.x"⟩)]) := by
    simp [merge_layer, mm_nil, mm_scalar, mm_empty_noop, mm_empty_reset,
      mm_branch_existing, mm_branch_new, dget, dset, dpop,
      clear_branch, dotted_key, dotted_join, strStartsWith, isMappingOpt, Value.isMap]
  simp [merge_layers, h1, h2]

/-! ## Claim theorems: layer loading errors (C6) -/

/-- Substring containment of `sub` in `s`. -/
def strContains (s sub : String) : Prop := ∃ a b, s = a ++ sub ++ b

/-- Claim C6: in the composition root's per-file loading step, a
`NotFound` loader failure yields no entry and no error, while an
`InvalidFormat` failure raises `LayerLoadError` whose message contains
the layer name and the file path, aborting the whole `_load_files` loop
with an error and no partial entry list (any entries from earlier files
are discarded). -/
theorem load_entry_notfound_invalidformat (layer path msg : String)
    (pre post : List (String × Option LoadResult))
    (hpre : ∀ x ∈ pre, ∀ m, x.2 ≠ some (.invalidFormat m)) :
    load_entry layer path .notFound = .ok none ∧
    (∃ emsg, load_entry layer path (.invalidFormat msg) = .error emsg ∧
      strContains emsg layer ∧ strContains emsg path ∧
      load_files layer (pre ++ (path, some (.invalidFormat msg)) :: post) = .error emsg) := by
  refine ⟨rfl, "Failed to load " ++ layer ++ " layer file " ++ path ++ ": " ++ msg,
    rfl, ⟨"Failed to load ", " layer file " ++ path ++ ": " ++ msg, by
      simp [String.append_assoc]⟩,
    ⟨"Failed to load " ++ layer ++ " layer file ", ": " ++ msg, by
      simp [String.append_assoc]⟩, ?_⟩
  induction pre with
  | nil => rfl
  | cons x rest ih =>
      rcases x with ⟨p0, r0⟩
      have hrest : ∀ x ∈ rest, ∀ m, x.2 ≠ some (.invalidFormat m) :=
        fun x hx => hpre x (List.mem_cons_of_mem _ hx)
      have ihh := ih hrest
      cases r0 with
      | none => simpa [load_files] using ihh
      | some res =>
          cases res with
          | notFound => simpa [load_files, load_entry] using ihh
          | invalidFormat m =>
              exact absurd rfl (hpre (p0, some (.invalidFormat m)) (List.mem_cons_self _ _) m)
          | ok d =>
              cases hd : d.isEmpty with
              | true => simp [load_files, load_entry, hd, ihh]
              | false => simp [load_files, load_entry, hd, ihh]

/-- Witness for C6: a skipped unknown-suffix file and a loaded TOML file
before the malformed one; the read aborts with the full message. -/
theorem load_entry_notfound_invalidformat_witness :
    load_entry "app" "bad.json" .notFound = .ok none ∧
    (∃ emsg, load_entry "app" "bad.json" (.invalidFormat "boom") = .error emsg ∧
      strContains emsg "app" ∧ strContains emsg "bad.json" ∧
      load_files "app"
        ([("notes.txt", none), ("ok.toml", some (.ok [("k", .int 1)]))] ++
          ("bad.json", some (.invalidFormat "boom")) ::
            [("later.toml", some (.ok [("z", .int 2)]))]) = .error emsg) :=
  load_entry_notfound_invalidformat "app" "bad.json" "boom"
    [("notes.txt", none), ("ok.toml", some (.ok [("k", .int 1)]))]
    [("later.toml", some (.ok [("z", .int 2)]))]
    (by intro x hx m
        rcases List.mem_cons.mp hx with rfl | hx
        · simp
        · rcases List.mem_cons.mp hx with rfl | hx
          · simp
          · simp at hx)

/-! ## Claim theorems: layer directory enumeration (C9) -/

/-- Claim C9: the layer candidate enumeration (used by the `app` and
`user` layers) yields the base directory's `config.toml` first when it
exists, followed by exactly the regular files of `config.d` whose
lower-cased extension is allow-listed (`.toml`, `.yaml`, `.yml`,
`.json`), in lexicographically sorted filename order; a missing
`config.toml` or a missing `config.d` directory only shortens the list
(no error is possible — the function is total). -/
theorem collect_layer_enumeration (base : LayerBase) :
    ∃ ds : List String,
      collect_layer base =
        (if base.hasConfigToml then ["config.toml"] else []) ++ ds ∧
      ds.Pairwise (fun a b : String => a ≤ b) ∧
      ds.Perm (((match base.configD with
                 | none => ([] : List DirEntry)
                 | some entries => entries).filter
          (fun (e : DirEntry) =>
            e.isFile && _ALLOWED_EXTENSIONS.contains (strLower (pathSuffix e.name)))).map
        (fun (e : DirEntry) => e.name)) ∧
      (base.configD = none → ds = []) := by
  rcases base with ⟨ct, cd⟩
  cases cd with
  | none => exact ⟨[], by simp [collect_layer], by simp, by simp, fun _ => rfl⟩
  | some entries =>
      refine ⟨((entries.mergeSort (fun a b => decide (a.name ≤ b.name))).filter
          (fun (e : DirEntry) =>
            e.isFile && _ALLOWED_EXTENSIONS.contains (strLower (pathSuffix e.name)))).map
            (fun (e : DirEntry) => e.name), by rfl, ?_, ?_, by simp⟩
      · have hsorted : (entries.mergeSort (fun a b => decide (a.name ≤ b.name))).Pairwise
            (fun a b => decide (a.name ≤ b.name) = true) := by
          apply List.sorted_mergeSort
          · intro a b c hab hbc
            simp only [decide_eq_true_eq] at hab hbc ⊢
            exact le_trans hab hbc
          · intro a b
            simpa [Bool.or_eq_true, decide_eq_true_eq] using le_total a.name b.name
        have hp1 : ((entries.mergeSort (fun a b => decide (a.name ≤ b.name))).filter
            (fun (e : DirEntry) =>
              e.isFile && _ALLOWED_EXTENSIONS.contains (strLower (pathSuffix e.name)))).Pairwise
            (fun a b => decide (a.name ≤ b.name) = true) :=
          hsorted.sublist (List.filter_sublist _)
        rw [List.pairwise_map]
        exact hp1.imp (by simp)
      · exact ((List.mergeSort_perm entries _).filter _).map _

/-! ## More dictionary lemmas -/

theorem mem_dset {α : Type} {d : List (String × α)} {k : String} {v : α} {kv : String × α}
    (h : kv ∈ dset d k v) : kv = (k, v) ∨ kv ∈ d := by
  induction d with
  | nil => simpa [dset] using h
  | cons kv0 rest ih =>
      rcases kv0 with ⟨k0, v0⟩
      by_cases h0 : k0 = k
      · rcases List.mem_cons.mp (by simpa [dset, h0] using h) with h | h
        · exact Or.inl h
        · exact Or.inr (List.mem_cons_of_mem _ h)
      · rcases List.mem_cons.mp (by simpa [dset, h0] using h) with h | h
        · exact Or.inr (by simp [h])
        · rcases ih h with h | h
          · exact Or.inl h
          · exact Or.inr (List.mem_cons_of_mem _ h)

theorem dpop_sublist {α : Type} (d : List (String × α)) (k : String) :
    (dpop d k).Sublist d := by
  induction d with
  | nil => simp [dpop]
  | cons kv rest ih =>
      rcases kv with ⟨k0, v0⟩
      by_cases h0 : k0 = k
      · simpa [dpop, h0] using List.sublist_cons_self _ _
      · simpa [dpop, h0] using ih.cons₂ (k0, v0)

theorem mem_dpop {α : Type} {d : List (String × α)} {k : String} {kv : String × α}
    (h : kv ∈ dpop d k) : kv ∈ d :=
  (dpop_sublist d k).subset h

theorem dNod_empty : dNod [] :=
  (vNod_map []).mpr ⟨by simp [dkeys], by simp⟩

theorem dNod_dset {d : Dict} {k : String} {v : Value} (hd : dNod d) (hv : vNod v) :
    dNod (dset d k v) := by
  refine (vNod_map _).mpr ⟨nodup_dkeys_dset d k v (dNod_nodup hd), ?_⟩
  intro kv hkv
  rcases mem_dset hkv with rfl | hkv
  · exact hv
  · exact ((vNod_map d).mp hd).2 kv hkv

theorem dNod_dpop {d : Dict} {k : String} (hd : dNod d) : dNod (dpop d k) := by
  refine (vNod_map _).mpr ⟨nodup_dkeys_dpop d k (dNod_nodup hd), ?_⟩
  intro kv hkv
  exact ((vNod_map d).mp hd).2 kv (mem_dpop hkv)

theorem dget_append {α : Type} (d1 d2 : List (String × α)) (k : String) :
    dget (d1 ++ d2) k =
      (match dget d1 k with
       | some v => some v
       | none => dget d2 k) := by
  induction d1 with
  | nil => simp [dget]
  | cons kv rest ih =>
      rcases kv with ⟨k0, v0⟩
      by_cases h0 : k0 = k <;> simp [dget, h0, ih]

theorem dset_append_of_none {α : Type} {d : List (String × α)} {k : String} (v : α)
    (h : dget d k = none) : dset d k v = d ++ [(k, v)] := by
  induction d with
  | nil => simp [dset]
  | cons kv rest ih =>
      rcases kv with ⟨k0, v0⟩
      by_cases h0 : k0 = k
      · subst h0
        simp [dget] at h
      · simp only [dget, if_neg h0] at h
        simp [dset, h0, ih h]

/-- The tree half of `merge_mapping` does not depend on the provenance
accumulator, the layer name, the source path, or the exact segment stack
(only on whether the stack is empty, which gates the top-level no-op for
empty incoming mappings). -/
theorem mm_fst_congr (inc : Dict) (t : Dict) (m m' : Meta) (l l' : String)
    (p p' : Option String) (segs segs' : List String)
    (hseg : segs.isEmpty = segs'.isEmpty) :
    (merge_mapping t m inc l p segs).1 = (merge_mapping t m' inc l' p' segs').1 := by
  cases inc with
  | nil => rw [mm_nil, mm_nil]
  | cons x rest =>
      rcases x with ⟨k, v⟩
      cases v with
      | map entries =>
          cases entries with
          | nil =>
              have hcond : (isMappingOpt (dget t k) && segs.isEmpty) =
                  (isMappingOpt (dget t k) && segs'.isEmpty) := by rw [hseg]
              cases hc : (isMappingOpt (dget t k) && segs.isEmpty) with
              | true =>
                  rw [mm_empty_noop _ _ _ _ _ _ _ hc,
                      mm_empty_noop _ _ _ _ _ _ _ (hcond ▸ hc)]
                  exact mm_fst_congr rest t m m' l l' p p' segs segs' hseg
              | false =>
                  rw [mm_empty_reset _ _ _ _ _ _ _ hc,
                      mm_empty_reset _ _ _ _ _ _ _ (hcond ▸ hc)]
                  exact mm_fst_congr rest _ _ _ _ _ _ _ segs segs' hseg
          | cons e es =>
              cases hg : dget t k with
              | some v' =>
                  cases v' with
                  | map em =>
                      rw [mm_branch_existing _ _ _ _ _ _ _ _ _ _ hg,
                          mm_branch_existing _ _ _ _ _ _ _ _ _ _ hg]
                      have hcont := mm_fst_congr (e :: es) em m m' l l' p p'
                        (segs ++ [k]) (segs' ++ [k]) (by cases segs <;> cases segs' <;> rfl)
                      rw [hcont]
                      exact mm_fst_congr rest _ _ _ _ _ _ _ segs segs' hseg
                  | str a =>
                      rw [mm_branch_new _ _ _ _ _ _ _ _ _ (by simp [hg, isMappingOpt]),
                          mm_branch_new _ _ _ _ _ _ _ _ _ (by simp [hg, isMappingOpt])]
                      have hcont := mm_fst_congr (e :: es) []
                        (clear_branch m (dotted_key segs k)) (clear_branch m' (dotted_key segs' k))
                        l l' p p' (segs ++ [k]) (segs' ++ [k]) (by cases segs <;> cases segs' <;> rfl)
                      rw [hcont]
                      exact mm_fst_congr rest _ _ _ _ _ _ _ segs segs' hseg
                  | int a =>
                      rw [mm_branch_new _ _ _ _ _ _ _ _ _ (by simp [hg, isMappingOpt]),
                          mm_branch_new _ _ _ _ _ _ _ _ _ (by simp [hg, isMappingOpt])]
                      have hcont := mm_fst_congr (e :: es) []
                        (clear_branch m (dotted_key segs k)) (clear_branch m' (dotted_key segs' k))
                        l l' p p' (segs ++ [k]) (segs' ++ [k]) (by cases segs <;> cases segs' <;> rfl)
                      rw [hcont]
                      exact mm_fst_congr rest _ _ _ _ _ _ _ segs segs' hseg
                  | bool a =>
                      rw [mm_branch_new _ _ _ _ _ _ _ _ _ (by simp [hg, isMappingOpt]),
                          mm_branch_new _ _ _ _ _ _ _ _ _ (by simp [hg, isMappingOpt])]
                      have hcont := mm_fst_congr (e :: es) []
                        (clear_branch m (dotted_key segs k)) (clear_branch m' (dotted_key segs' k))
                        l l' p p' (segs ++ [k]) (segs' ++ [k]) (by cases segs <;> cases segs' <;> rfl)
                      rw [hcont]
                      exact mm_fst_congr rest _ _ _ _ _ _ _ segs segs' hseg
                  | null =>
                      rw [mm_branch_new _ _ _ _ _ _ _ _ _ (by simp [hg, isMappingOpt]),
                          mm_branch_new _ _ _ _ _ _ _ _ _ (by simp [hg, isMappingOpt])]
                      have hcont := mm_fst_congr (e :: es) []
                        (clear_branch m (dotted_key segs k)) (clear_branch m' (dotted_key segs' k))
                        l l' p p' (segs ++ [k]) (segs' ++ [k]) (by cases segs <;> cases segs' <;> rfl)
                      rw [hcont]
                      exact mm_fst_congr rest _ _ _ _ _ _ _ segs segs' hseg
                  | list a =>
                      rw [mm_branch_new _ _ _ _ _ _ _ _ _ (by simp [hg, isMappingOpt]),
                          mm_branch_new _ _ _ _ _ _ _ _ _ (by simp [hg, isMappingOpt])]
                      have hcont := mm_fst_congr (e :: es) []
                        (clear_branch m (dotted_key segs k)) (clear_branch m' (dotted_key segs' k))
                        l l' p p' (segs ++ [k]) (segs' ++ [k]) (by cases segs <;> cases segs' <;> rfl)
                      rw [hcont]
                      exact mm_fst_congr rest _ _ _ _ _ _ _ segs segs' hseg
              | none =>
                  rw [mm_branch_new _ _ _ _ _ _ _ _ _ (by simp [hg, isMappingOpt]),
                      mm_branch_new _ _ _ _ _ _ _ _ _ (by simp [hg, isMappingOpt])]
                  have hcont := mm_fst_congr (e :: es) []
                    (clear_branch m (dotted_key segs k)) (clear_branch m' (dotted_key segs' k))
                    l l' p p' (segs ++ [k]) (segs' ++ [k]) (by cases segs <;> cases segs' <;> rfl)
                  rw [hcont]
                  exact mm_fst_congr rest _ _ _ _ _ _ _ segs segs' hseg
      | str a =>
          rw [mm_scalar _ _ _ _ _ _ _ _ (by simp [Value.isMap]),
              mm_scalar _ _ _ _ _ _ _ _ (by simp [Value.isMap])]
          exact mm_fst_congr rest _ _ _ _ _ _ _ segs segs' hseg
      | int a =>
          rw [mm_scalar _ _ _ _ _ _ _ _ (by simp [Value.isMap]),
              mm_scalar _ _ _ _ _ _ _ _ (by simp [Value.isMap])]
          exact mm_fst_congr rest _ _ _ _ _ _ _ segs segs' hseg
      | bool a =>
          rw [mm_scalar _ _ _ _ _ _ _ _ (by simp [Value.isMap]),
              mm_scalar _ _ _ _ _ _ _ _ (by simp [Value.isMap])]
          exact mm_fst_congr rest _ _ _ _ _ _ _ segs segs' hseg
      | null =>
          rw [mm_scalar _ _ _ _ _ _ _ _ (by simp [Value.isMap]),
              mm_scalar _ _ _ _ _ _ _ _ (by simp [Value.isMap])]
          exact mm_fst_congr rest _ _ _ _ _ _ _ segs segs' hseg
      | list a =>
          rw [mm_scalar _ _ _ _ _ _ _ _ (by simp [Value.isMap]),
              mm_scalar _ _ _ _ _ _ _ _ (by simp [Value.isMap])]
          exact mm_fst_congr rest _ _ _ _ _ _ _ segs segs' hseg
termination_by sizeOf inc
decreasing_by all_goals (simp_wf; try omega)

theorem isMappingOpt_iff {o : Option Value} :
    isMappingOpt o = true ↔ ∃ em, o = some (.map em) := by
  cases o with
  | none => simp [isMappingOpt]
  | some w => cases w <;> simp [isMappingOpt]

/-- Merging preserves unique keys at every mapping level of the tree,
whatever the incoming payload is. -/
theorem mm_fst_dNod (inc : Dict) (t : Dict) (m : Meta) (l : String)
    (p : Option String) (segs : List String) (ht : dNod t) :
    dNod (merge_mapping t m inc l p segs).1 := by
  cases inc with
  | nil => rw [mm_nil]; exact ht
  | cons x rest =>
      rcases x with ⟨k, v⟩
      cases v with
      | map entries =>
          cases entries with
          | nil =>
              cases hc : (isMappingOpt (dget t k) && segs.isEmpty) with
              | true =>
                  rw [mm_empty_noop _ _ _ _ _ _ _ hc]
                  exact mm_fst_dNod rest t m l p segs ht
              | false =>
                  rw [mm_empty_reset _ _ _ _ _ _ _ hc]
                  exact mm_fst_dNod rest _ _ l p segs (dNod_dset ht dNod_empty)
          | cons e es =>
              by_cases hex : isMappingOpt (dget t k) = true
              · obtain ⟨em, hg⟩ := isMappingOpt_iff.mp hex
                rw [mm_branch_existing _ _ _ _ _ _ _ _ _ _ hg]
                have hcont := mm_fst_dNod (e :: es) em m l p (segs ++ [k]) (dNod_val ht hg)
                exact mm_fst_dNod rest _ _ l p segs (dNod_dset ht hcont)
              · rw [mm_branch_new _ _ _ _ _ _ _ _ _ (by simpa using hex)]
                have hcont := mm_fst_dNod (e :: es) []
                  (clear_branch m (dotted_key segs k)) l p (segs ++ [k]) dNod_empty
                cases hX : (merge_mapping [] (clear_branch m (dotted_key segs k))
                    (e :: es) l p (segs ++ [k])).1 with
                | nil => exact mm_fst_dNod rest _ _ l p segs (dNod_dpop ht)
                | cons c0 crest =>
                    rw [hX] at hcont
                    exact mm_fst_dNod rest _ _ l p segs (dNod_dset ht hcont)
      | str a =>
          rw [mm_scalar _ _ _ _ _ _ _ _ (by simp [Value.isMap])]
          exact mm_fst_dNod rest _ _ l p segs (dNod_dset ht (vNod_not_map (by simp [Value.isMap])))
      | int a =>
          rw [mm_scalar _ _ _ _ _ _ _ _ (by simp [Value.isMap])]
          exact mm_fst_dNod rest _ _ l p segs (dNod_dset ht (vNod_not_map (by simp [Value.isMap])))
      | bool a =>
          rw [mm_scalar _ _ _ _ _ _ _ _ (by simp [Value.isMap])]
          exact mm_fst_dNod rest _ _ l p segs (dNod_dset ht (vNod_not_map (by simp [Value.isMap])))
      | null =>
          rw [mm_scalar _ _ _ _ _ _ _ _ (by simp [Value.isMap])]
          exact mm_fst_dNod rest _ _ l p segs (dNod_dset ht (vNod_not_map (by simp [Value.isMap])))
      | list a =>
          rw [mm_scalar _ _ _ _ _ _ _ _ (by simp [Value.isMap])]
          exact mm_fst_dNod rest _ _ l p segs (dNod_dset ht (vNod_not_map (by simp [Value.isMap])))
termination_by sizeOf inc
decreasing_by all_goals (simp_wf; try omega)

theorem dNod_cons {k : String} {v : Value} {rest : Dict} (h : dNod ((k, v) :: rest)) :
    vNod v ∧ dNod rest ∧ k ∉ dkeys rest := by
  obtain ⟨hn, hv⟩ := (vNod_map _).mp h
  simp only [dkeys, List.map_cons, List.nodup_cons] at hn
  exact ⟨hv _ (List.mem_cons_self _ _),
    (vNod_map _).mpr ⟨by simpa [dkeys] using hn.2,
      fun kv hkv => hv kv (List.mem_cons_of_mem _ hkv)⟩,
    by simpa [dkeys] using hn.1⟩

/-- Merging a well-formed tree into an accumulator that shares none of
its keys appends it verbatim: in particular, re-merging a merge result
into an empty accumulator reproduces it. -/
theorem mm_fst_id (t0 : Dict) (acc : Dict) (m : Meta) (l : String) (p : Option String)
    (segs : List String) :
    dNod t0 → (∀ k ∈ dkeys t0, dget acc k = none) →
    (merge_mapping acc m t0 l p segs).1 = acc ++ t0 := by
  cases t0 with
  | nil => intro _ _; rw [mm_nil, List.append_nil]
  | cons x rest =>
      intro ht hdis
      rcases x with ⟨k, v⟩
      obtain ⟨hvN, hrestN, hknotin⟩ := dNod_cons ht
      have hk : dget acc k = none := hdis k (by simp [dkeys])
      have hdis' : ∀ k' ∈ dkeys rest, dget (acc ++ [(k, v)]) k' = none := by
        intro k' hk'
        rw [dget_append]
        have hne : k' ≠ k := fun hkk => hknotin (hkk ▸ hk')
        have : dget acc k' = none := hdis k' (by simp [dkeys] at hk' ⊢; exact Or.inr hk')
        simp [this, dget, Ne.symm hne]
      cases v with
      | map entries =>
          cases entries with
          | nil =>
              have hc : (isMappingOpt (dget acc k) && segs.isEmpty) = false := by
                rw [hk]; rfl
              rw [mm_empty_reset _ _ _ _ _ _ _ hc,
                  dset_append_of_none _ hk,
                  mm_fst_id rest _ _ l p segs hrestN hdis']
              simp
          | cons e es =>
              have hc : isMappingOpt (dget acc k) = false := by rw [hk]; rfl
              rw [mm_branch_new _ _ _ _ _ _ _ _ _ hc]
              have hcont : (merge_mapping [] (clear_branch m (dotted_key segs k))
                  (e :: es) l p (segs ++ [k])).1 = e :: es := by
                rw [mm_fst_id (e :: es) [] _ l p (segs ++ [k]) hvN (by intro k' _; rfl)]
                rfl
              rw [hcont]
              dsimp only
              rw [dset_append_of_none _ hk,
                  mm_fst_id rest _ _ l p segs hrestN hdis']
              simp
      | str a =>
          rw [mm_scalar _ _ _ _ _ _ _ _ (by simp [Value.isMap]),
              dset_append_of_none _ hk, mm_fst_id rest _ _ l p segs hrestN hdis']
          simp
      | int a =>
          rw [mm_scalar _ _ _ _ _ _ _ _ (by simp [Value.isMap]),
              dset_append_of_none _ hk, mm_fst_id rest _ _ l p segs hrestN hdis']
          simp
      | bool a =>
          rw [mm_scalar _ _ _ _ _ _ _ _ (by simp [Value.isMap]),
              dset_append_of_none _ hk, mm_fst_id rest _ _ l p segs hrestN hdis']
          simp
      | null =>
          rw [mm_scalar _ _ _ _ _ _ _ _ (by simp [Value.isMap]),
              dset_append_of_none _ hk, mm_fst_id rest _ _ l p segs hrestN hdis']
          simp
      | list a =>
          rw [mm_scalar _ _ _ _ _ _ _ _ (by simp [Value.isMap]),
              dset_append_of_none _ hk, mm_fst_id rest _ _ l p segs hrestN hdis']
          simp
termination_by sizeOf t0
decreasing_by all_goals (simp_wf; try omega)

/-! ## Claim theorem: associativity under re-flattening (C3) -/

/-- Claim C3: for all nested mappings `a`, `b`, `c`, merging the three
payloads equals first merging `[a, b]`, re-flattening the resulting tree
into a single-layer payload, and merging it with `c` — the merged trees
coincide (whatever the layer names and source paths are). -/
theorem merge_tree_associative (a b c : Dict) (la lb lc lab : String)
    (pa pb pc pab : Option String) :
    (merge_layers [(la, a, pa), (lb, b, pb), (lc, c, pc)]).1 =
    (merge_layers [(lab, (merge_layers [(la, a, pa), (lb, b, pb)]).1, pab),
                   (lc, c, pc)]).1 := by
  simp only [merge_layers, List.foldl_cons, List.foldl_nil, merge_layer]
  have hTnod : dNod (merge_mapping (merge_mapping [] [] a la pa []).1
      (merge_mapping [] [] a la pa []).2 b lb pb []).1 :=
    mm_fst_dNod b _ _ lb pb [] (mm_fst_dNod a [] [] la pa [] dNod_empty)
  have hid : (merge_mapping [] [] (merge_mapping (merge_mapping [] [] a la pa []).1
      (merge_mapping [] [] a la pa []).2 b lb pb []).1 lab pab []).1 =
      (merge_mapping (merge_mapping [] [] a la pa []).1
        (merge_mapping [] [] a la pa []).2 b lb pb []).1 := by
    rw [mm_fst_id _ [] [] lab pab [] hTnod (fun k _ => rfl)]
    rfl
  rw [hid]
  exact mm_fst_congr c _ _ _ lc lc pc pc [] [] rfl

/-! ## Frame lemmas for the merge recursion -/

/-- Tree frame: merging never touches target keys outside the incoming
payload's keys. -/
theorem mm_tframe (inc : Dict) (t : Dict) (m : Meta) (l : String) (p : Option String)
    (segs : List String) (k0 : String) :
    k0 ∉ dkeys inc → dget (merge_mapping t m inc l p segs).1 k0 = dget t k0 := by
  cases inc with
  | nil => intro _; rw [mm_nil]
  | cons x rest =>
      intro h0
      rcases x with ⟨k, v⟩
      have hne : k0 ≠ k := by
        intro hkk
        exact h0 (by simp [dkeys, hkk])
      have hrest : k0 ∉ dkeys rest := by
        intro hk
        exact h0 (by simp [dkeys] at hk ⊢; exact Or.inr hk)
      cases v with
      | map entries =>
          cases entries with
          | nil =>
              cases hc : (isMappingOpt (dget t k) && segs.isEmpty) with
              | true =>
                  rw [mm_empty_noop _ _ _ _ _ _ _ hc]
                  exact mm_tframe rest t m l p segs k0 hrest
              | false =>
                  rw [mm_empty_reset _ _ _ _ _ _ _ hc,
                      mm_tframe rest _ _ l p segs k0 hrest]
                  exact dget_dset_ne _ _ _ _ hne
          | cons e es =>
              by_cases hex : isMappingOpt (dget t k) = true
              · obtain ⟨em, hg⟩ := isMappingOpt_iff.mp hex
                rw [mm_branch_existing _ _ _ _ _ _ _ _ _ _ hg,
                    mm_tframe rest _ _ l p segs k0 hrest]
                exact dget_dset_ne _ _ _ _ hne
              · rw [mm_branch_new _ _ _ _ _ _ _ _ _ (by simpa using hex)]
                cases hX : (merge_mapping [] (clear_branch m (dotted_key segs k))
                    (e :: es) l p (segs ++ [k])).1 with
                | nil =>
                    rw [mm_tframe rest _ _ l p segs k0 hrest]
                    exact dget_dpop_ne _ _ _ hne
                | cons c0 crest =>
                    rw [mm_tframe rest _ _ l p segs k0 hrest]
                    exact dget_dset_ne _ _ _ _ hne
      | str a =>
          rw [mm_scalar _ _ _ _ _ _ _ _ (by simp [Value.isMap]),
              mm_tframe rest _ _ l p segs k0 hrest]
          exact dget_dset_ne _ _ _ _ hne
      | int a =>
          rw [mm_scalar _ _ _ _ _ _ _ _ (by simp [Value.isMap]),
              mm_tframe rest _ _ l p segs k0 hrest]
          exact dget_dset_ne _ _ _ _ hne
      | bool a =>
          rw [mm_scalar _ _ _ _ _ _ _ _ (by simp [Value.isMap]),
              mm_tframe rest _ _ l p segs k0 hrest]
          exact dget_dset_ne _ _ _ _ hne
      | null =>
          rw [mm_scalar _ _ _ _ _ _ _ _ (by simp [Value.isMap]),
              mm_tframe rest _ _ l p segs k0 hrest]
          exact dget_dset_ne _ _ _ _ hne
      | list a =>
          rw [mm_scalar _ _ _ _ _ _ _ _ (by simp [Value.isMap]),
              mm_tframe rest _ _ l p segs k0 hrest]
          exact dget_dset_ne _ _ _ _ hne
termination_by sizeOf inc
decreasing_by all_goals (simp_wf; try omega)

/-- Provenance frame: merging only touches provenance keys inside the
cones of the incoming payload's keys. -/
theorem mm_mframe (inc : Dict) (t : Dict) (m : Meta) (l : String) (p : Option String)
    (segs : List String) (key0 : String) :
    (∀ k' ∈ dkeys inc, ¬ underCone segs k' key0) →
    dget (merge_mapping t m inc l p segs).2 key0 = dget m key0 := by
  cases inc with
  | nil => intro _; rw [mm_nil]
  | cons x rest =>
      intro h0
      rcases x with ⟨k, v⟩
      have hk1 : ¬ underCone segs k key0 := h0 k (by simp [dkeys])
      have hrest : ∀ k' ∈ dkeys rest, ¬ underCone segs k' key0 := by
        intro k' hk'
        exact h0 k' (by simp [dkeys] at hk' ⊢; exact Or.inr hk')
      have hne : key0 ≠ dotted_key segs k := by
        intro hkk
        exact hk1 (Or.inl hkk)
      have hclear : dget (clear_branch m (dotted_key segs k)) key0 = dget m key0 := by
        rw [dget_clear_branch]
        simp only [underCone] at hk1
        rw [if_neg hk1]
      cases v with
      | map entries =>
          cases entries with
          | nil =>
              cases hc : (isMappingOpt (dget t k) && segs.isEmpty) with
              | true =>
                  rw [mm_empty_noop _ _ _ _ _ _ _ hc]
                  exact mm_mframe rest t m l p segs key0 hrest
              | false =>
                  rw [mm_empty_reset _ _ _ _ _ _ _ hc,
                      mm_mframe rest _ _ l p segs key0 hrest]
                  exact hclear
          | cons e es =>
              have hcone : ∀ k'' ∈ dkeys (e :: es), ¬ underCone (segs ++ [k]) k'' key0 :=
                fun k'' _ hc => hk1 (cone_up hc)
              by_cases hex : isMappingOpt (dget t k) = true
              · obtain ⟨em, hg⟩ := isMappingOpt_iff.mp hex
                rw [mm_branch_existing _ _ _ _ _ _ _ _ _ _ hg,
                    mm_mframe rest _ _ l p segs key0 hrest]
                exact mm_mframe (e :: es) em m l p (segs ++ [k]) key0 hcone
              · rw [mm_branch_new _ _ _ _ _ _ _ _ _ (by simpa using hex)]
                cases hX : (merge_mapping [] (clear_branch m (dotted_key segs k))
                    (e :: es) l p (segs ++ [k])).1 with
                | nil =>
                    rw [mm_mframe rest _ _ l p segs key0 hrest,
                        mm_mframe (e :: es) [] _ l p (segs ++ [k]) key0 hcone]
                    exact hclear
                | cons c0 crest =>
                    rw [mm_mframe rest _ _ l p segs key0 hrest,
                        mm_mframe (e :: es) [] _ l p (segs ++ [k]) key0 hcone]
                    exact hclear
      | str a =>
          rw [mm_scalar _ _ _ _ _ _ _ _ (by simp [Value.isMap]),
              mm_mframe rest _ _ l p segs key0 hrest,
              dget_dset_ne _ _ _ _ hne]
          exact hclear
      | int a =>
          rw [mm_scalar _ _ _ _ _ _ _ _ (by simp [Value.isMap]),
              mm_mframe rest _ _ l p segs key0 hrest,
              dget_dset_ne _ _ _ _ hne]
          exact hclear
      | bool a =>
          rw [mm_scalar _ _ _ _ _ _ _ _ (by simp [Value.isMap]),
              mm_mframe rest _ _ l p segs key0 hrest,
              dget_dset_ne _ _ _ _ hne]
          exact hclear
      | null =>
          rw [mm_scalar _ _ _ _ _ _ _ _ (by simp [Value.isMap]),
              mm_mframe rest _ _ l p segs key0 hrest,
              dget_dset_ne _ _ _ _ hne]
          exact hclear
      | list a =>
          rw [mm_scalar _ _ _ _ _ _ _ _ (by simp [Value.isMap]),
              mm_mframe rest _ _ l p segs key0 hrest,
              dget_dset_ne _ _ _ _ hne]
          exact hclear
termination_by sizeOf inc
decreasing_by all_goals (simp_wf; try omega)

/-- The provenance index keeps unique keys (it is a dictionary). -/
theorem mm_nodup_meta (inc : Dict) (t : Dict) (m : Meta) (l : String) (p : Option String)
    (segs : List String) (hm : (dkeys m).Nodup) :
    (dkeys (merge_mapping t m inc l p segs).2).Nodup := by
  cases inc with
  | nil => rw [mm_nil]; exact hm
  | cons x rest =>
      rcases x with ⟨k, v⟩
      have hclear : (dkeys (clear_branch m (dotted_key segs k))).Nodup :=
        (dkeys_filter_sublist _ _).nodup hm
      cases v with
      | map entries =>
          cases entries with
          | nil =>
              cases hc : (isMappingOpt (dget t k) && segs.isEmpty) with
              | true =>
                  rw [mm_empty_noop _ _ _ _ _ _ _ hc]
                  exact mm_nodup_meta rest t m l p segs hm
              | false =>
                  rw [mm_empty_reset _ _ _ _ _ _ _ hc]
                  exact mm_nodup_meta rest _ _ l p segs hclear
          | cons e es =>
              by_cases hex : isMappingOpt (dget t k) = true
              · obtain ⟨em, hg⟩ := isMappingOpt_iff.mp hex
                rw [mm_branch_existing _ _ _ _ _ _ _ _ _ _ hg]
                exact mm_nodup_meta rest _ _ l p segs
                  (mm_nodup_meta (e :: es) em m l p (segs ++ [k]) hm)
              · rw [mm_branch_new _ _ _ _ _ _ _ _ _ (by simpa using hex)]
                have hin := mm_nodup_meta (e :: es) []
                  (clear_branch m (dotted_key segs k)) l p (segs ++ [k]) hclear
                cases hX : (merge_mapping [] (clear_branch m (dotted_key segs k))
                    (e :: es) l p (segs ++ [k])).1 with
                | nil => exact mm_nodup_meta rest _ _ l p segs hin
                | cons c0 crest => exact mm_nodup_meta rest _ _ l p segs hin
      | str a =>
          rw [mm_scalar _ _ _ _ _ _ _ _ (by simp [Value.isMap])]
          exact mm_nodup_meta rest _ _ l p segs (nodup_dkeys_dset _ _ _ hclear)
      | int a =>
          rw [mm_scalar _ _ _ _ _ _ _ _ (by simp [Value.isMap])]
          exact mm_nodup_meta rest _ _ l p segs (nodup_dkeys_dset _ _ _ hclear)
      | bool a =>
          rw [mm_scalar _ _ _ _ _ _ _ _ (by simp [Value.isMap])]
          exact mm_nodup_meta rest _ _ l p segs (nodup_dkeys_dset _ _ _ hclear)
      | null =>
          rw [mm_scalar _ _ _ _ _ _ _ _ (by simp [Value.isMap])]
          exact mm_nodup_meta rest _ _ l p segs (nodup_dkeys_dset _ _ _ hclear)
      | list a =>
          rw [mm_scalar _ _ _ _ _ _ _ _ (by simp [Value.isMap])]
          exact mm_nodup_meta rest _ _ l p segs (nodup_dkeys_dset _ _ _ hclear)
termination_by sizeOf inc
decreasing_by all_goals (simp_wf; try omega)

theorem dGood_empty : dGood [] :=
  (vGood_map []).mpr ⟨by simp [dkeys], by simp⟩

theorem dGood_cons {k : String} {v : Value} {rest : Dict} (h : dGood ((k, v) :: rest)) :
    dotFree k ∧ vGood v ∧ dGood rest ∧ k ∉ dkeys rest := by
  obtain ⟨hn, hv⟩ := (vGood_map _).mp h
  simp only [dkeys, List.map_cons, List.nodup_cons] at hn
  exact ⟨(hv _ (List.mem_cons_self _ _)).1, (hv _ (List.mem_cons_self _ _)).2,
    (vGood_map _).mpr ⟨by simpa [dkeys] using hn.2,
      fun kv hkv => hv kv (List.mem_cons_of_mem _ hkv)⟩,
    by simpa [dkeys] using hn.1⟩

theorem dGood_dset {d : Dict} {k : String} {v : Value} (hd : dGood d)
    (hk : dotFree k) (hv : vGood v) : dGood (dset d k v) := by
  refine (vGood_map _).mpr ⟨nodup_dkeys_dset d k v (dGood_nodup hd), ?_⟩
  intro kv hkv
  rcases mem_dset hkv with rfl | hkv
  · exact ⟨hk, hv⟩
  · exact ((vGood_map d).mp hd).2 kv hkv

theorem dGood_dpop {d : Dict} {k : String} (hd : dGood d) : dGood (dpop d k) := by
  refine (vGood_map _).mpr ⟨nodup_dkeys_dpop d k (dGood_nodup hd), ?_⟩
  intro kv hkv
  exact ((vGood_map d).mp hd).2 kv (mem_dpop hkv)

/-- Merging a well-formed payload into a well-formed tree yields a
well-formed tree (unique, dot-free keys throughout). -/
theorem mm_fst_dGood (inc : Dict) (t : Dict) (m : Meta) (l : String)
    (p : Option String) (segs : List String) :
    dGood inc → dGood t → dGood (merge_mapping t m inc l p segs).1 := by
  cases inc with
  | nil => intro _ ht; rw [mm_nil]; exact ht
  | cons x rest =>
      intro hinc ht
      rcases x with ⟨k, v⟩
      obtain ⟨hkF, hvG, hrestG, _⟩ := dGood_cons hinc
      cases v with
      | map entries =>
          cases entries with
          | nil =>
              cases hc : (isMappingOpt (dget t k) && segs.isEmpty) with
              | true =>
                  rw [mm_empty_noop _ _ _ _ _ _ _ hc]
                  exact mm_fst_dGood rest t m l p segs hrestG ht
              | false =>
                  rw [mm_empty_reset _ _ _ _ _ _ _ hc]
                  exact mm_fst_dGood rest _ _ l p segs hrestG
                    (dGood_dset ht hkF dGood_empty)
          | cons e es =>
              by_cases hex : isMappingOpt (dget t k) = true
              · obtain ⟨em, hg⟩ := isMappingOpt_iff.mp hex
                rw [mm_branch_existing _ _ _ _ _ _ _ _ _ _ hg]
                have hcont := mm_fst_dGood (e :: es) em m l p (segs ++ [k]) hvG
                  (dGood_val ht hg)
                exact mm_fst_dGood rest _ _ l p segs hrestG (dGood_dset ht hkF hcont)
              · rw [mm_branch_new _ _ _ _ _ _ _ _ _ (by simpa using hex)]
                have hcont := mm_fst_dGood (e :: es) []
                  (clear_branch m (dotted_key segs k)) l p (segs ++ [k]) hvG dGood_empty
                cases hX : (merge_mapping [] (clear_branch m (dotted_key segs k))
                    (e :: es) l p (segs ++ [k])).1 with
                | nil => exact mm_fst_dGood rest _ _ l p segs hrestG (dGood_dpop ht)
                | cons c0 crest =>
                    rw [hX] at hcont
                    exact mm_fst_dGood rest _ _ l p segs hrestG (dGood_dset ht hkF hcont)
      | str a =>
          rw [mm_scalar _ _ _ _ _ _ _ _ (by simp [Value.isMap])]
          exact mm_fst_dGood rest _ _ l p segs hrestG
            (dGood_dset ht hkF (vGood_not_map (by simp [Value.isMap])))
      | int a =>
          rw [mm_scalar _ _ _ _ _ _ _ _ (by simp [Value.isMap])]
          exact mm_fst_dGood rest _ _ l p segs hrestG
            (dGood_dset ht hkF (vGood_not_map (by simp [Value.isMap])))
      | bool a =>
          rw [mm_scalar _ _ _ _ _ _ _ _ (by simp [Value.isMap])]
          exact mm_fst_dGood rest _ _ l p segs hrestG
            (dGood_dset ht hkF (vGood_not_map (by simp [Value.isMap])))
      | null =>
          rw [mm_scalar _ _ _ _ _ _ _ _ (by simp [Value.isMap])]
          exact mm_fst_dGood rest _ _ l p segs hrestG
            (dGood_dset ht hkF (vGood_not_map (by simp [Value.isMap])))
      | list a =>
          rw [mm_scalar _ _ _ _ _ _ _ _ (by simp [Value.isMap])]
          exact mm_fst_dGood rest _ _ l p segs hrestG
            (dGood_dset ht hkF (vGood_not_map (by simp [Value.isMap])))
termination_by sizeOf inc
decreasing_by all_goals (simp_wf; try omega)

theorem dGood_keys {d : Dict} (h : dGood d) : ∀ k' ∈ dkeys d, dotFree k' := by
  intro k' hk'
  obtain ⟨kv, hkv, hfst⟩ := List.mem_map.mp hk'
  exact hfst ▸ (((vGood_map d).mp h).2 kv hkv).1

theorem resolveD_cons_ne {d : Dict} {k1 k : String} {w1 : Value} {ks : List String}
    (h : k1 ≠ k) : resolveD ((k1, w1) :: d) (k :: ks) = resolveD d (k :: ks) := by
  simp [resolveD, resolveV, dget, h]

theorem resolveD_cons_nil_isMap {d : Dict} {v : Value}
    (h : resolveD d [] = some v) : v.isMap = true := by
  rw [resolveD] at h
  simp [resolveV] at h
  rw [← h]
  rfl

theorem resolveV_nil (v : Value) : resolveV v [] = some v := by cases v <;> rfl

/-- Scalar-win: if the incoming (well-formed) payload resolves a path to
a non-mapping value, then after merging it the tree resolves that path
to that value, and the provenance index maps the dotted path to an entry
naming this layer and source path. -/
theorem mm_scalar_win (inc : Dict) (t : Dict) (m : Meta) (l : String) (p : Option String)
    (segs : List String) (pa : List String) (v : Value) :
    dGood inc → goodPath segs →
    resolveD inc pa = some v → v.isMap = false →
    resolveD (merge_mapping t m inc l p segs).1 pa = some v ∧
    dget (merge_mapping t m inc l p segs).2 (dotted_join (segs ++ pa)) =
      some ⟨l, p, dotted_join (segs ++ pa)⟩ := by
  cases inc with
  | nil =>
      intro _ _ hres hv
      exfalso
      cases pa with
      | nil => rw [resolveD_cons_nil_isMap hres] at hv; exact Bool.noConfusion hv
      | cons k ks =>
          rw [resolveD, resolveV_cons_none (show dget ([] : Dict) k = none from rfl)] at hres
          exact Option.noConfusion hres
  | cons x rest =>
      intro hinc hsegs hres hv
      rcases x with ⟨k1, w1⟩
      obtain ⟨hk1F, hw1G, hrestG, hk1nin⟩ := dGood_cons hinc
      cases pa with
      | nil => rw [resolveD_cons_nil_isMap hres] at hv; exact Bool.noConfusion hv
      | cons k ks =>
          by_cases hkk : k1 = k
          · subst hkk
            have hdg : dget ((k1, w1) :: rest) k1 = some w1 := by simp [dget]
            rw [resolveD, resolveV_cons_some hdg] at hres
            cases ks with
            | nil =>
                rw [resolveV_nil, Option.some.injEq] at hres
                subst hres
                have hw1nm : w1.isMap = false := hv
                rw [mm_scalar _ _ _ _ _ _ _ _ hw1nm]
                have hmfr : ∀ k' ∈ dkeys rest,
                    ¬ underCone segs k' (dotted_join (segs ++ k1 :: [])) := by
                  intro k' hk'
                  exact cone_sep hsegs (dGood_keys hrestG k' hk') hk1F
                    (by intro s hs; simp at hs) (fun he => hk1nin (he ▸ hk'))
                constructor
                · rw [resolveD, resolveV_cons_some
                    (by rw [mm_tframe rest _ _ l p segs k1 hk1nin, dget_dset_self])]
                  exact resolveV_nil w1
                · rw [mm_mframe rest _ _ l p segs _ hmfr, ← dotted_key_eq, dget_dset_self]
            | cons k2 ks2 =>
                cases w1 with
                | map entries =>
                    cases entries with
                    | nil =>
                        exfalso
                        rw [show resolveV (.map []) (k2 :: ks2) = resolveD [] (k2 :: ks2) from rfl,
                            resolveD,
                            resolveV_cons_none (show dget ([] : Dict) k2 = none from rfl)] at hres
                        exact Option.noConfusion hres
                    | cons e es =>
                        have hres' : resolveD (e :: es) (k2 :: ks2) = some v := hres
                        have hsegs' : goodPath (segs ++ [k1]) :=
                          goodPath_append hsegs (goodPath_single hk1F)
                        have hksG : goodPath (k2 :: ks2) :=
                          goodPath_of_resolve _ _ _ hw1G hres'
                        have hassoc : (segs ++ [k1]) ++ (k2 :: ks2) = segs ++ (k1 :: k2 :: ks2) := by
                          simp
                        have hmfr : ∀ k' ∈ dkeys rest,
                            ¬ underCone segs k' (dotted_join (segs ++ k1 :: k2 :: ks2)) := by
                          intro k' hk'
                          exact cone_sep hsegs (dGood_keys hrestG k' hk') hk1F hksG
                            (fun he => hk1nin (he ▸ hk'))
                        by_cases hex : isMappingOpt (dget t k1) = true
                        · obtain ⟨em, hg⟩ := isMappingOpt_iff.mp hex
                          rw [mm_branch_existing _ _ _ _ _ _ _ _ _ _ hg]
                          obtain ⟨ih1, ih2⟩ := mm_scalar_win (e :: es) em m l p
                            (segs ++ [k1]) (k2 :: ks2) v hw1G hsegs' hres' hv
                          constructor
                          · rw [resolveD, resolveV_cons_some
                              (by rw [mm_tframe rest _ _ l p segs k1 hk1nin, dget_dset_self])]
                            exact ih1
                          · rw [mm_mframe rest _ _ l p segs _ hmfr]
                            rw [hassoc] at ih2
                            exact ih2
                        · rw [mm_branch_new _ _ _ _ _ _ _ _ _ (by simpa using hex)]
                          obtain ⟨ih1, ih2⟩ := mm_scalar_win (e :: es) []
                            (clear_branch m (dotted_key segs k1)) l p
                            (segs ++ [k1]) (k2 :: ks2) v hw1G hsegs' hres' hv
                          cases hX : (merge_mapping [] (clear_branch m (dotted_key segs k1))
                              (e :: es) l p (segs ++ [k1])).1 with
                          | nil =>
                              exfalso
                              rw [hX, resolveD,
                                  resolveV_cons_none (show dget ([] : Dict) k2 = none from rfl)] at ih1
                              exact Option.noConfusion ih1
                          | cons c0 cr =>
                              dsimp only
                              rw [hX] at ih1
                              constructor
                              · rw [resolveD, resolveV_cons_some
                                  (by rw [mm_tframe rest _ _ l p segs k1 hk1nin, dget_dset_self])]
                                exact ih1
                              · rw [mm_mframe rest _ _ l p segs _ hmfr]
                                rw [hassoc] at ih2
                                exact ih2
                | str a =>
                    exfalso
                    rw [resolveV_not_map (by rfl)] at hres
                    exact Option.noConfusion hres
                | int a =>
                    exfalso
                    rw [resolveV_not_map (by rfl)] at hres
                    exact Option.noConfusion hres
                | bool a =>
                    exfalso
                    rw [resolveV_not_map (by rfl)] at hres
                    exact Option.noConfusion hres
                | null =>
                    exfalso
                    rw [resolveV_not_map (by rfl)] at hres
                    exact Option.noConfusion hres
                | list a =>
                    exfalso
                    rw [resolveV_not_map (by rfl)] at hres
                    exact Option.noConfusion hres
          · have hres' : resolveD rest (k :: ks) = some v := by
              rw [← resolveD_cons_ne hkk]
              exact hres
            cases w1 with
            | map entries =>
                cases entries with
                | nil =>
                    cases hc : (isMappingOpt (dget t k1) && segs.isEmpty) with
                    | true =>
                        rw [mm_empty_noop _ _ _ _ _ _ _ hc]
                        exact mm_scalar_win rest t m l p segs (k :: ks) v hrestG hsegs hres' hv
                    | false =>
                        rw [mm_empty_reset _ _ _ _ _ _ _ hc]
                        exact mm_scalar_win rest _ _ l p segs (k :: ks) v hrestG hsegs hres' hv
                | cons e es =>
                    by_cases hex : isMappingOpt (dget t k1) = true
                    · obtain ⟨em, hg⟩ := isMappingOpt_iff.mp hex
                      rw [mm_branch_existing _ _ _ _ _ _ _ _ _ _ hg]
                      exact mm_scalar_win rest _ _ l p segs (k :: ks) v hrestG hsegs hres' hv
                    · rw [mm_branch_new _ _ _ _ _ _ _ _ _ (by simpa using hex)]
                      cases hX : (merge_mapping [] (clear_branch m (dotted_key segs k1))
                          (e :: es) l p (segs ++ [k1])).1 with
                      | nil =>
                          exact mm_scalar_win rest _ _ l p segs (k :: ks) v hrestG hsegs hres' hv
                      | cons c0 cr =>
                          exact mm_scalar_win rest _ _ l p segs (k :: ks) v hrestG hsegs hres' hv
            | str a =>
                rw [mm_scalar _ _ _ _ _ _ _ _ (by simp [Value.isMap])]
                exact mm_scalar_win rest _ _ l p segs (k :: ks) v hrestG hsegs hres' hv
            | int a =>
                rw [mm_scalar _ _ _ _ _ _ _ _ (by simp [Value.isMap])]
                exact mm_scalar_win rest _ _ l p segs (k :: ks) v hrestG hsegs hres' hv
            | bool a =>
                rw [mm_scalar _ _ _ _ _ _ _ _ (by simp [Value.isMap])]
                exact mm_scalar_win rest _ _ l p segs (k :: ks) v hrestG hsegs hres' hv
            | null =>
                rw [mm_scalar _ _ _ _ _ _ _ _ (by simp [Value.isMap])]
                exact mm_scalar_win rest _ _ l p segs (k :: ks) v hrestG hsegs hres' hv
            | list a =>
                rw [mm_scalar _ _ _ _ _ _ _ _ (by simp [Value.isMap])]
                exact mm_scalar_win rest _ _ l p segs (k :: ks) v hrestG hsegs hres' hv
termination_by sizeOf inc
decreasing_by all_goals (simp_wf; try omega)

theorem resolveD_cons_eq (d : Dict) (k : String) (ks : List String) :
    resolveD d (k :: ks) =
      (match dget d k with
       | some w => resolveV w ks
       | none => none) := by
  cases h : dget d k with
  | some w => rw [resolveD, resolveV_cons_some h]
  | none => rw [resolveD, resolveV_cons_none h]

theorem resolveD_cons_congr {d d' : Dict} {k : String} {ks : List String}
    (h : dget d k = dget d' k) : resolveD d (k :: ks) = resolveD d' (k :: ks) := by
  rw [resolveD_cons_eq, resolveD_cons_eq, h]

theorem dget_clear_of_not_cone {m : Meta} {segs : List String} {k1 X : String}
    (h : ¬ underCone segs k1 X) :
    dget (clear_branch m (dotted_key segs k1)) X = dget m X := by
  rw [dget_clear_branch]
  simp only [underCone] at h
  rw [if_neg h]

theorem resolveD_cons_some {d : Dict} {k : String} {ks : List String} {w : Value}
    (h : dget d k = some w) : resolveD d (k :: ks) = resolveV w ks := by
  rw [resolveD, resolveV_cons_some h]

theorem resolveD_cons_none {d : Dict} {k : String} {ks : List String}
    (h : dget d k = none) : resolveD d (k :: ks) = none := by
  rw [resolveD, resolveV_cons_none h]

/-- Preservation: when the incoming (well-formed) payload does not set
the path to a non-mapping value, any non-mapping value resolved at that
path after the merge was already there before, and the provenance entry
for the dotted path is untouched. -/
theorem mm_preserve (inc : Dict) (t : Dict) (m : Meta) (l : String) (p : Option String)
    (segs pa : List String) (v' : Value) :
    dGood inc → dGood t → goodPath segs → goodPath pa → pa ≠ [] →
    (∀ w, resolveD inc pa = some w → w.isMap = true) →
    resolveD (merge_mapping t m inc l p segs).1 pa = some v' → v'.isMap = false →
    resolveD t pa = some v' ∧
    dget (merge_mapping t m inc l p segs).2 (dotted_join (segs ++ pa)) =
      dget m (dotted_join (segs ++ pa)) := by
  cases inc with
  | nil =>
      intro _ _ _ _ _ _ hres _
      rw [mm_nil] at hres ⊢
      exact ⟨hres, rfl⟩
  | cons x rest =>
      intro hinc ht hsegs hpa hpane hnc hres hv'
      rcases x with ⟨k1, w1⟩
      obtain ⟨hk1F, hw1G, hrestG, hk1nin⟩ := dGood_cons hinc
      cases pa with
      | nil => exact absurd rfl hpane
      | cons k ks =>
          have hkF : dotFree k := hpa k (List.mem_cons_self _ _)
          have hksG : goodPath ks := fun s hs => hpa s (List.mem_cons_of_mem _ hs)
          by_cases hkk : k1 = k
          · subst hkk
            have hdg : dget ((k1, w1) :: rest) k1 = some w1 := by simp [dget]
            have hmfr : ∀ k' ∈ dkeys rest,
                ¬ underCone segs k' (dotted_join (segs ++ k1 :: ks)) := by
              intro k' hk'
              exact cone_sep hsegs (dGood_keys hrestG k' hk') hk1F hksG
                (fun he => hk1nin (he ▸ hk'))
            cases w1 with
            | map entries =>
                cases entries with
                | nil =>
                    cases hc : (isMappingOpt (dget t k1) && segs.isEmpty) with
                    | true =>
                        rw [mm_empty_noop _ _ _ _ _ _ _ hc] at hres ⊢
                        refine ⟨?_, mm_mframe rest t m l p segs _ hmfr⟩
                        rw [resolveD_cons_congr (mm_tframe rest t m l p segs k1 hk1nin)] at hres
                        exact hres
                    | false =>
                        exfalso
                        rw [mm_empty_reset _ _ _ _ _ _ _ hc] at hres
                        rw [resolveD_cons_congr (mm_tframe rest _ _ l p segs k1 hk1nin)] at hres
                        rw [resolveD_cons_some (dget_dset_self t k1 (.map []))] at hres
                        cases ks with
                        | nil =>
                            rw [resolveV_nil, Option.some.injEq] at hres
                            rw [← hres] at hv'
                            simp [Value.isMap] at hv'
                        | cons k2 ks2 =>
                            rw [resolveV_cons_none (show dget ([] : Dict) k2 = none from rfl)] at hres
                            exact Option.noConfusion hres
                | cons e es =>
                    have hnc' : ∀ w, resolveD (e :: es) ks = some w → w.isMap = true := by
                      intro w hw
                      refine hnc w ?_
                      rw [resolveD, resolveV_cons_some hdg]
                      exact hw
                    by_cases hex : isMappingOpt (dget t k1) = true
                    · obtain ⟨em, hg⟩ := isMappingOpt_iff.mp hex
                      rw [mm_branch_existing _ _ _ _ _ _ _ _ _ _ hg] at hres ⊢
                      rw [resolveD_cons_congr (mm_tframe rest _ _ l p segs k1 hk1nin)] at hres
                      rw [resolveD_cons_some (dget_dset_self t k1 _)] at hres
                      cases ks with
                      | nil =>
                          exfalso
                          rw [resolveV_nil, Option.some.injEq] at hres
                          rw [← hres] at hv'
                          simp [Value.isMap] at hv'
                      | cons k2 ks2 =>
                          obtain ⟨iha, ihb⟩ := mm_preserve (e :: es) em m l p (segs ++ [k1])
                            (k2 :: ks2) v' hw1G (dGood_val ht hg)
                            (goodPath_append hsegs (goodPath_single hk1F)) hksG (by simp)
                            hnc' hres hv'
                          constructor
                          · rw [resolveD_cons_some hg]
                            exact iha
                          · rw [mm_mframe rest _ _ l p segs _ hmfr]
                            have hassoc : (segs ++ [k1]) ++ (k2 :: ks2) =
                                segs ++ (k1 :: k2 :: ks2) := by simp
                            rw [hassoc] at ihb
                            exact ihb
                    · rw [mm_branch_new _ _ _ _ _ _ _ _ _ (by simpa using hex)] at hres ⊢
                      cases hX : (merge_mapping [] (clear_branch m (dotted_key segs k1))
                          (e :: es) l p (segs ++ [k1])).1 with
                      | nil =>
                          exfalso
                          rw [hX] at hres
                          dsimp only at hres
                          rw [resolveD_cons_congr (mm_tframe rest _ _ l p segs k1 hk1nin)] at hres
                          rw [resolveD_cons_none (dget_dpop_self t k1 (dGood_nodup ht))] at hres
                          exact Option.noConfusion hres
                      | cons c0 cr =>
                          exfalso
                          rw [hX] at hres
                          dsimp only at hres
                          rw [resolveD_cons_congr (mm_tframe rest _ _ l p segs k1 hk1nin)] at hres
                          rw [resolveD_cons_some (dget_dset_self t k1 _)] at hres
                          cases ks with
                          | nil =>
                              rw [resolveV_nil, Option.some.injEq] at hres
                              rw [← hres] at hv'
                              simp [Value.isMap] at hv'
                          | cons k2 ks2 =>
                              have hresX : resolveD (merge_mapping []
                                  (clear_branch m (dotted_key segs k1)) (e :: es) l p
                                  (segs ++ [k1])).1 (k2 :: ks2) = some v' := by
                                rw [hX]
                                exact hres
                              obtain ⟨iha, _⟩ := mm_preserve (e :: es) []
                                (clear_branch m (dotted_key segs k1)) l p (segs ++ [k1])
                                (k2 :: ks2) v' hw1G dGood_empty
                                (goodPath_append hsegs (goodPath_single hk1F)) hksG (by simp)
                                hnc' hresX hv'
                              rw [resolveD_cons_none (show dget ([] : Dict) k2 = none from rfl)] at iha
                              exact Option.noConfusion iha
            | str a =>
                exfalso
                cases ks with
                | nil =>
                    have := hnc (.str a) (by rw [resolveD_cons_some hdg, resolveV_nil])
                    simp [Value.isMap] at this
                | cons k2 ks2 =>
                    rw [mm_scalar _ _ _ _ _ _ _ _ (by simp [Value.isMap])] at hres
                    rw [resolveD_cons_congr (mm_tframe rest _ _ l p segs k1 hk1nin)] at hres
                    rw [resolveD_cons_some (dget_dset_self t k1 _)] at hres
                    rw [resolveV_not_map (by rfl)] at hres
                    exact Option.noConfusion hres
            | int a =>
                exfalso
                cases ks with
                | nil =>
                    have := hnc (.int a) (by rw [resolveD_cons_some hdg, resolveV_nil])
                    simp [Value.isMap] at this
                | cons k2 ks2 =>
                    rw [mm_scalar _ _ _ _ _ _ _ _ (by simp [Value.isMap])] at hres
                    rw [resolveD_cons_congr (mm_tframe rest _ _ l p segs k1 hk1nin)] at hres
                    rw [resolveD_cons_some (dget_dset_self t k1 _)] at hres
                    rw [resolveV_not_map (by rfl)] at hres
                    exact Option.noConfusion hres
            | bool a =>
                exfalso
                cases ks with
                | nil =>
                    have := hnc (.bool a) (by rw [resolveD_cons_some hdg, resolveV_nil])
                    simp [Value.isMap] at this
                | cons k2 ks2 =>
                    rw [mm_scalar _ _ _ _ _ _ _ _ (by simp [Value.isMap])] at hres
                    rw [resolveD_cons_congr (mm_tframe rest _ _ l p segs k1 hk1nin)] at hres
                    rw [resolveD_cons_some (dget_dset_self t k1 _)] at hres
                    rw [resolveV_not_map (by rfl)] at hres
                    exact Option.noConfusion hres
            | null =>
                exfalso
                cases ks with
                | nil =>
                    have := hnc .null (by rw [resolveD_cons_some hdg, resolveV_nil])
                    simp [Value.isMap] at this
                | cons k2 ks2 =>
                    rw [mm_scalar _ _ _ _ _ _ _ _ (by simp [Value.isMap])] at hres
                    rw [resolveD_cons_congr (mm_tframe rest _ _ l p segs k1 hk1nin)] at hres
                    rw [resolveD_cons_some (dget_dset_self t k1 _)] at hres
                    rw [resolveV_not_map (by rfl)] at hres
                    exact Option.noConfusion hres
            | list a =>
                exfalso
                cases ks with
                | nil =>
                    have := hnc (.list a) (by rw [resolveD_cons_some hdg, resolveV_nil])
                    simp [Value.isMap] at this
                | cons k2 ks2 =>
                    rw [mm_scalar _ _ _ _ _ _ _ _ (by simp [Value.isMap])] at hres
                    rw [resolveD_cons_congr (mm_tframe rest _ _ l p segs k1 hk1nin)] at hres
                    rw [resolveD_cons_some (dget_dset_self t k1 _)] at hres
                    rw [resolveV_not_map (by rfl)] at hres
                    exact Option.noConfusion hres
          · -- the item's key is not the head of the path
            have hsep : ¬ underCone segs k1 (dotted_join (segs ++ k :: ks)) :=
              cone_sep hsegs hk1F hkF hksG (Ne.symm hkk)
            have hclr : dget (clear_branch m (dotted_key segs k1))
                (dotted_join (segs ++ k :: ks)) = dget m (dotted_join (segs ++ k :: ks)) :=
              dget_clear_of_not_cone hsep
            have hnsetX : dotted_join (segs ++ k :: ks) ≠ dotted_key segs k1 :=
              fun he => hsep (Or.inl he)
            have hnc' : ∀ w, resolveD rest (k :: ks) = some w → w.isMap = true :=
              fun w hw => hnc w (by rw [resolveD_cons_ne hkk]; exact hw)
            have hconeup : ∀ k'' ∈ dkeys (match w1 with | _ => ([] : Dict)), True :=
              fun _ _ => trivial
            cases w1 with
            | map entries =>
                cases entries with
                | nil =>
                    cases hc : (isMappingOpt (dget t k1) && segs.isEmpty) with
                    | true =>
                        rw [mm_empty_noop _ _ _ _ _ _ _ hc] at hres ⊢
                        exact mm_preserve rest t m l p segs (k :: ks) v' hrestG ht hsegs hpa
                          (by simp) hnc' hres hv'
                    | false =>
                        rw [mm_empty_reset _ _ _ _ _ _ _ hc] at hres ⊢
                        obtain ⟨iha, ihb⟩ := mm_preserve rest _ _ l p segs (k :: ks) v' hrestG
                          (dGood_dset ht hk1F dGood_empty) hsegs hpa (by simp) hnc' hres hv'
                        constructor
                        · rw [resolveD_cons_congr (dget_dset_ne t k1 k _ (Ne.symm hkk))] at iha
                          exact iha
                        · rw [ihb, hclr]
                | cons e es =>
                    by_cases hex : isMappingOpt (dget t k1) = true
                    · obtain ⟨em, hg⟩ := isMappingOpt_iff.mp hex
                      rw [mm_branch_existing _ _ _ _ _ _ _ _ _ _ hg] at hres ⊢
                      obtain ⟨iha, ihb⟩ := mm_preserve rest _ _ l p segs (k :: ks) v' hrestG
                        (dGood_dset ht hk1F
                          (mm_fst_dGood (e :: es) em m l p (segs ++ [k1]) hw1G (dGood_val ht hg)))
                        hsegs hpa (by simp) hnc' hres hv'
                      constructor
                      · rw [resolveD_cons_congr (dget_dset_ne t k1 k _ (Ne.symm hkk))] at iha
                        exact iha
                      · rw [ihb]
                        exact mm_mframe (e :: es) em m l p (segs ++ [k1]) _
                          (fun k'' _ hcu => hsep (cone_up hcu))
                    · rw [mm_branch_new _ _ _ _ _ _ _ _ _ (by simpa using hex)] at hres ⊢
                      have hinner : dGood (merge_mapping []
                          (clear_branch m (dotted_key segs k1)) (e :: es) l p (segs ++ [k1])).1 :=
                        mm_fst_dGood (e :: es) [] _ l p (segs ++ [k1]) hw1G dGood_empty
                      have hmN : dget (merge_mapping []
                          (clear_branch m (dotted_key segs k1)) (e :: es) l p (segs ++ [k1])).2
                          (dotted_join (segs ++ k :: ks)) = dget m (dotted_join (segs ++ k :: ks)) := by
                        rw [mm_mframe (e :: es) [] _ l p (segs ++ [k1]) _
                          (fun k'' _ hcu => hsep (cone_up hcu))]
                        exact hclr
                      cases hX : (merge_mapping [] (clear_branch m (dotted_key segs k1))
                          (e :: es) l p (segs ++ [k1])).1 with
                      | nil =>
                          rw [hX] at hres
                          dsimp only at hres ⊢
                          obtain ⟨iha, ihb⟩ := mm_preserve rest _ _ l p segs (k :: ks) v' hrestG
                            (dGood_dpop ht) hsegs hpa (by simp) hnc' hres hv'
                          constructor
                          · rw [resolveD_cons_congr (dget_dpop_ne t k1 k (Ne.symm hkk))] at iha
                            exact iha
                          · rw [ihb, hmN]
                      | cons c0 cr =>
                          rw [hX] at hres hinner
                          dsimp only at hres ⊢
                          obtain ⟨iha, ihb⟩ := mm_preserve rest _ _ l p segs (k :: ks) v' hrestG
                            (dGood_dset ht hk1F hinner) hsegs hpa (by simp) hnc' hres hv'
                          constructor
                          · rw [resolveD_cons_congr (dget_dset_ne t k1 k _ (Ne.symm hkk))] at iha
                            exact iha
                          · rw [ihb, hmN]
            | str a =>
                rw [mm_scalar _ _ _ _ _ _ _ _ (by simp [Value.isMap])] at hres ⊢
                obtain ⟨iha, ihb⟩ := mm_preserve rest _ _ l p segs (k :: ks) v' hrestG
                  (dGood_dset ht hk1F (vGood_not_map (by simp [Value.isMap])))
                  hsegs hpa (by simp) hnc' hres hv'
                constructor
                · rw [resolveD_cons_congr (dget_dset_ne t k1 k _ (Ne.symm hkk))] at iha
                  exact iha
                · rw [ihb, dget_dset_ne _ _ _ _ hnsetX, hclr]
            | int a =>
                rw [mm_scalar _ _ _ _ _ _ _ _ (by simp [Value.isMap])] at hres ⊢
                obtain ⟨iha, ihb⟩ := mm_preserve rest _ _ l p segs (k :: ks) v' hrestG
                  (dGood_dset ht hk1F (vGood_not_map (by simp [Value.isMap])))
                  hsegs hpa (by simp) hnc' hres hv'
                constructor
                · rw [resolveD_cons_congr (dget_dset_ne t k1 k _ (Ne.symm hkk))] at iha
                  exact iha
                · rw [ihb, dget_dset_ne _ _ _ _ hnsetX, hclr]
            | bool a =>
                rw [mm_scalar _ _ _ _ _ _ _ _ (by simp [Value.isMap])] at hres ⊢
                obtain ⟨iha, ihb⟩ := mm_preserve rest _ _ l p segs (k :: ks) v' hrestG
                  (dGood_dset ht hk1F (vGood_not_map (by simp [Value.isMap])))
                  hsegs hpa (by simp) hnc' hres hv'
                constructor
                · rw [resolveD_cons_congr (dget_dset_ne t k1 k _ (Ne.symm hkk))] at iha
                  exact iha
                · rw [ihb, dget_dset_ne _ _ _ _ hnsetX, hclr]
            | null =>
                rw [mm_scalar _ _ _ _ _ _ _ _ (by simp [Value.isMap])] at hres ⊢
                obtain ⟨iha, ihb⟩ := mm_preserve rest _ _ l p segs (k :: ks) v' hrestG
                  (dGood_dset ht hk1F (vGood_not_map (by simp [Value.isMap])))
                  hsegs hpa (by simp) hnc' hres hv'
                constructor
                · rw [resolveD_cons_congr (dget_dset_ne t k1 k _ (Ne.symm hkk))] at iha
                  exact iha
                · rw [ihb, dget_dset_ne _ _ _ _ hnsetX, hclr]
            | list a =>
                rw [mm_scalar _ _ _ _ _ _ _ _ (by simp [Value.isMap])] at hres ⊢
                obtain ⟨iha, ihb⟩ := mm_preserve rest _ _ l p segs (k :: ks) v' hrestG
                  (dGood_dset ht hk1F (vGood_not_map (by simp [Value.isMap])))
                  hsegs hpa (by simp) hnc' hres hv'
                constructor
                · rw [resolveD_cons_congr (dget_dset_ne t k1 k _ (Ne.symm hkk))] at iha
                  exact iha
                · rw [ihb, dget_dset_ne _ _ _ _ hnsetX, hclr]
termination_by sizeOf inc
decreasing_by all_goals (simp_wf; try omega)

/-! ## Layer-fold invariants (`merge_layers`) -/

theorem merge_layers_snoc (ls : List (String × Dict × Option String))
    (L : String × Dict × Option String) :
    merge_layers (ls ++ [L]) =
      merge_layer (merge_layers ls).1 (merge_layers ls).2 L.2.1 L.1 L.2.2 := by
  rw [merge_layers, merge_layers, List.foldl_append]
  rfl

theorem merge_layers_dGood (ls : List (String × Dict × Option String)) :
    (∀ L ∈ ls, dGood L.2.1) → dGood (merge_layers ls).1 := by
  induction ls using List.reverseRecOn with
  | nil => intro _; exact dGood_empty
  | append_singleton ls L ih =>
      intro h
      rw [merge_layers_snoc, merge_layer]
      exact mm_fst_dGood L.2.1 _ _ _ _ _ (h L (by simp))
        (ih (fun L' hL' => h L' (by simp [hL'])))

theorem merge_layers_nodup_meta (ls : List (String × Dict × Option String)) :
    (dkeys (merge_layers ls).2).Nodup := by
  induction ls using List.reverseRecOn with
  | nil => simp [merge_layers, dkeys]
  | append_singleton ls L ih =>
      rw [merge_layers_snoc, merge_layer]
      exact mm_nodup_meta _ _ _ _ _ _ ih

/-- In an association list with unique keys, a key that is present has
exactly one entry. -/
theorem filter_count_one {α : Type} {m : List (String × α)} {k : String} {e : α} :
    (dkeys m).Nodup → dget m k = some e →
    (m.filter (fun kv => kv.1 == k)).length = 1 := by
  induction m with
  | nil => intro _ h; exact Option.noConfusion h
  | cons kv rest ih =>
      intro hnd h
      rcases kv with ⟨k', v'⟩
      rw [dkeys, List.map_cons, List.nodup_cons] at hnd
      by_cases hk : k' = k
      · subst hk
        have hrest : rest.filter (fun kv => kv.1 == k') = [] := by
          rw [List.filter_eq_nil_iff]
          intro kv hkv
          simp only [beq_iff_eq]
          intro he
          apply hnd.1
          rw [← he]
          show kv.1 ∈ List.map Prod.fst rest
          exact List.mem_map_of_mem Prod.fst hkv
        rw [List.filter_cons_of_pos (by simp), hrest]
        rfl
      · simp only [dget, if_neg hk] at h
        rw [List.filter_cons_of_neg (by simp [hk])]
        exact ih hnd.2 h

theorem dotFree_dec {s : String} (h : ('.' : Char) ∉ s.data) : dotFree s := h

/-- Well-formedness of the common two-level payload shape used in
concrete instances. -/
theorem dGood_two_level (k1 k2 : String) (v : Value) (h1 : dotFree k1) (h2 : dotFree k2)
    (hv : v.isMap = false) : dGood [(k1, .map [(k2, v)])] := by
  refine (vGood_map _).mpr ⟨by simp [dkeys], ?_⟩
  intro kv hkv
  rw [List.mem_singleton] at hkv
  subst hkv
  refine ⟨h1, (vGood_map _).mpr ⟨by simp [dkeys], ?_⟩⟩
  intro kv' hkv'
  rw [List.mem_singleton] at hkv'
  subst hkv'
  exact ⟨h2, vGood_not_map hv⟩

/-- Contribution invariant: a scalar in the merged tree was contributed
by the last layer that holds a non-mapping value at that path, and the
provenance entry for the dotted path records that layer's name and
source path. -/
theorem merge_layers_contrib (ls : List (String × Dict × Option String))
    (pa : List String) (v : Value) :
    (∀ L ∈ ls, dGood L.2.1) → goodPath pa → pa ≠ [] →
    resolveD (merge_layers ls).1 pa = some v → v.isMap = false →
    ∃ i, ∃ h : i < ls.length,
      resolveD (ls.get ⟨i, h⟩).2.1 pa = some v ∧
      dget (merge_layers ls).2 (dotted_join pa) =
        some ⟨(ls.get ⟨i, h⟩).1, (ls.get ⟨i, h⟩).2.2, dotted_join pa⟩ ∧
      ∀ j, ∀ hj : j < ls.length, i < j →
        ∀ w, resolveD (ls.get ⟨j, hj⟩).2.1 pa = some w → w.isMap = true := by
  induction ls using List.reverseRecOn with
  | nil =>
      intro _ _ hpane hres _
      exfalso
      cases pa with
      | nil => exact hpane rfl
      | cons k ks =>
          rw [show merge_layers [] = (([] : Dict), ([] : Meta)) from rfl] at hres
          rw [resolveD_cons_none (show dget ([] : Dict) k = none from rfl)] at hres
          exact Option.noConfusion hres
  | append_singleton ls L ih =>
      intro hG hpa hpane hres hv
      rcases L with ⟨l, b, q⟩
      simp only [merge_layers_snoc, merge_layer] at hres
      by_cases hB : ∀ w, resolveD b pa = some w → w.isMap = true
      · -- the appended layer holds no scalar at the path: preservation
        obtain ⟨iha, ihb⟩ := mm_preserve b (merge_layers ls).1 (merge_layers ls).2 l q []
          pa v (hG (l, b, q) (by simp))
          (merge_layers_dGood ls (fun L' hL' => hG L' (by simp [hL'])))
          (fun s hs => absurd hs (List.not_mem_nil s)) hpa hpane hB hres hv
        rw [List.nil_append] at ihb
        obtain ⟨i, h, h1, h2, h3⟩ :=
          ih (fun L' hL' => hG L' (by simp [hL'])) hpa hpane iha hv
        have hi' : i < (ls ++ [(l, b, q)]).length := by simp; omega
        have hget : (ls ++ [(l, b, q)]).get ⟨i, hi'⟩ = ls.get ⟨i, h⟩ := by
          simp [List.getElem_append_left h]
        refine ⟨i, hi', ?_, ?_, ?_⟩
        · rw [hget]
          exact h1
        · rw [hget]
          simp only [merge_layers_snoc, merge_layer]
          rw [ihb]
          exact h2
        · intro j hj hij w hw
          by_cases hjl : j < ls.length
          · have hgj : (ls ++ [(l, b, q)]).get ⟨j, hj⟩ = ls.get ⟨j, hjl⟩ := by
              simp [List.getElem_append_left hjl]
            rw [hgj] at hw
            exact h3 j hjl hij w hw
          · have hjeq : j = ls.length := by simp at hj; omega
            subst hjeq
            have hgj : (ls ++ [(l, b, q)]).get ⟨ls.length, hj⟩ = (l, b, q) := by simp
            rw [hgj] at hw
            exact hB w hw
      · -- the appended layer wins with a scalar at the path
        push_neg at hB
        obtain ⟨w, hw, hwm⟩ := hB
        have hwm2 : w.isMap = false := by simpa using hwm
        obtain ⟨sa, sb⟩ := mm_scalar_win b (merge_layers ls).1 (merge_layers ls).2 l q [] pa w
          (hG (l, b, q) (by simp)) (fun s hs => absurd hs (List.not_mem_nil s)) hw hwm2
        rw [List.nil_append] at sb
        have hvw : v = w := by
          rw [hres] at sa
          exact Option.some.inj sa
        have hw' : resolveD b pa = some v := by rw [hvw]; exact hw
        have hi' : ls.length < (ls ++ [(l, b, q)]).length := by simp
        have hget : (ls ++ [(l, b, q)]).get ⟨ls.length, hi'⟩ = (l, b, q) := by simp
        refine ⟨ls.length, hi', ?_, ?_, ?_⟩
        · rw [hget]
          exact hw'
        · rw [hget]
          simp only [merge_layers_snoc, merge_layer]
          exact sb
        · intro j hj hij w' hw'
          exfalso
          simp at hj
          omega

/-! ## Claim theorems: precedence (C1) and provenance (C4) -/

/-- Claim C1 is false as stated: payloads may carry keys that contain a
literal dot.  Layers A and B both resolve the path x.y to different
scalars (7 and 1) and the merged tree does hold B's value there, but the
provenance index ends up with no entry at all under the key "x.y" — the
literal dotted key "x.y" in B's payload makes `_clear_branch` discard
the freshly written provenance entry, so `Config.origin` cannot name
B's layer for that path. -/
theorem merge_precedence_counterexample :
    resolveD [("x", Value.map [("y", Value.int 7)])] ["x", "y"] = some (.int 7) ∧
    resolveD [("x", Value.map [("y", Value.int 1)]),
              ("x.y", Value.map [("z", Value.int 5)])] ["x", "y"] = some (.int 1) ∧
    (Value.int 7).isMap = false ∧ (Value.int 1).isMap = false ∧
    Value.int 7 ≠ Value.int 1 ∧
    resolveD (merge_layers
        [("A", [("x", .map [("y", .int 7)])], none),
         ("B", [("x", .map [("y", .int 1)]), ("x.y", .map [("z", .int 5)])], none)]).1
      ["x", "y"] = some (.int 1) ∧
    Config.origin
      ⟨(merge_layers
          [("A", [("x", .map [("y", .int 7)])], none),
           ("B", [("x", .map [("y", .int 1)]), ("x.y", .map [("z", .int 5)])], none)]).1,
       (merge_layers
          [("A", [("x", .map [("y", .int 7)])], none),
           ("B", [("x", .map [("y", .int 1)]), ("x.y", .map [("z", .int 5)])], none)]).2⟩
      (dotted_join ["x", "y"]) = none := by
  have hm : merge_layers
      [("A", [("x", Value.map [("y", Value.int 7)])], none),
       ("B", [("x", Value.map [("y", Value.int 1)]),
              ("x.y", Value.map [("z", Value.int 5)])], none)] =
      ([("x", Value.map [("y", Value.int 1)]), ("x.y", Value.map [("z", Value.int 5)])],
       [("x.y.z", ⟨"B", none, "x.y.z"⟩)]) := by
    simp [merge_layers, merge_layer, merge_mapping, dget, dset, dpop, set_scalar,
      clear_branch, dotted_key, dotted_join, strStartsWith, isMappingOpt]
  refine ⟨rfl, rfl, rfl, rfl, by simp, ?_, ?_⟩
  · rw [hm]
    rfl
  · show dget (merge_layers _).2 (dotted_join ["x", "y"]) = none
    rw [hm]
    rfl

/-- Claim C1 (amended): when the later payload B is well-formed (unique
and dot-free keys at every mapping node), a scalar held by B at a path
wins over any earlier layer A's scalar at the same path, and the
provenance entry for the dotted path names B's layer and source path. -/
theorem merge_precedence_last_wins (la lb : String) (a b : Dict) (qa qb : Option String)
    (pa : List String) (va vb : Value) :
    dGood b → resolveD a pa = some va → va.isMap = false →
    resolveD b pa = some vb → vb.isMap = false → va ≠ vb →
    resolveD (merge_layers [(la, a, qa), (lb, b, qb)]).1 pa = some vb ∧
    Config.origin ⟨(merge_layers [(la, a, qa), (lb, b, qb)]).1,
        (merge_layers [(la, a, qa), (lb, b, qb)]).2⟩ (dotted_join pa) =
      some ⟨lb, qb, dotted_join pa⟩ := by
  intro hGb ha hva hrb hvb hne
  have key := mm_scalar_win b (merge_layer [] [] a la qa).1 (merge_layer [] [] a la qa).2
    lb qb [] pa vb hGb (fun s hs => absurd hs (List.not_mem_nil s)) hrb hvb
  rw [List.nil_append] at key
  exact ⟨key.1, key.2⟩

theorem merge_precedence_last_wins_witness :
    dGood [("a", Value.map [("x", Value.int 2)])] ∧
    (resolveD (merge_layers
        [("app", [("a", Value.map [("x", Value.int 1)])], some "app.toml"),
         ("env", [("a", Value.map [("x", Value.int 2)])], none)]).1 ["a", "x"] =
        some (.int 2) ∧
     Config.origin
       ⟨(merge_layers
           [("app", [("a", Value.map [("x", Value.int 1)])], some "app.toml"),
            ("env", [("a", Value.map [("x", Value.int 2)])], none)]).1,
        (merge_layers
           [("app", [("a", Value.map [("x", Value.int 1)])], some "app.toml"),
            ("env", [("a", Value.map [("x", Value.int 2)])], none)]).2⟩
       (dotted_join ["a", "x"]) = some ⟨"env", none, dotted_join ["a", "x"]⟩) := by
  have hGb : dGood [("a", Value.map [("x", Value.int 2)])] :=
    dGood_two_level "a" "x" (.int 2) (dotFree_dec (by decide)) (dotFree_dec (by decide)) rfl
  exact ⟨hGb, merge_precedence_last_wins "app" "env"
    [("a", Value.map [("x", Value.int 1)])] [("a", Value.map [("x", Value.int 2)])]
    (some "app.toml") none ["a", "x"] (.int 1) (.int 2)
    hGb rfl rfl rfl rfl (by simp)⟩

/-- Claim C4 is false as stated: with the later layer holding the
literal dotted key "a.b", the merged tree holds the scalar 1 at the
path a.b — contributed by layer A — yet the provenance entry stored
under the key "a.b" names layer B, whose payload resolves nothing at
that path. -/
theorem merge_provenance_counterexample :
    resolveD (merge_layers
        [("A", [("a", .map [("b", .int 1)])], none),
         ("B", [("a.b", .int 2)], some "b.toml")]).1 ["a", "b"] = some (.int 1) ∧
    (Value.int 1).isMap = false ∧
    resolveD [("a", Value.map [("b", Value.int 1)])] ["a", "b"] = some (.int 1) ∧
    resolveD [("a.b", Value.int 2)] ["a", "b"] = none ∧
    dget (merge_layers
        [("A", [("a", .map [("b", .int 1)])], none),
         ("B", [("a.b", .int 2)], some "b.toml")]).2 (dotted_join ["a", "b"]) =
      some ⟨"B", some "b.toml", dotted_join ["a", "b"]⟩ := by
  have hm : merge_layers
      [("A", [("a", Value.map [("b", Value.int 1)])], none),
       ("B", [("a.b", Value.int 2)], some "b.toml")] =
      ([("a", Value.map [("b", Value.int 1)]), ("a.b", Value.int 2)],
       [("a.b", ⟨"B", some "b.toml", "a.b"⟩)]) := by
    simp [merge_layers, merge_layer, merge_mapping, dget, dset, dpop, set_scalar,
      clear_branch, dotted_key, dotted_join, strStartsWith, isMappingOpt]
  refine ⟨?_, rfl, rfl, rfl, ?_⟩
  · rw [hm]
    rfl
  · rw [hm]
    rfl

/-- Claim C4 (amended): over well-formed layer payloads (unique and
dot-free keys at every mapping node) and a non-empty dot-free path,
every scalar held by the merged tree has exactly one provenance entry
under its dotted key, and that entry names the layer and source path of
the last layer holding a non-mapping value at the path — the layer that
contributed the winning value. -/
theorem merge_provenance_scalar_paths (ls : List (String × Dict × Option String))
    (pa : List String) (v : Value) :
    (∀ L ∈ ls, dGood L.2.1) → goodPath pa → pa ≠ [] →
    resolveD (merge_layers ls).1 pa = some v → v.isMap = false →
    ((merge_layers ls).2.filter (fun kv => kv.1 == dotted_join pa)).length = 1 ∧
    ∃ i, ∃ h : i < ls.length,
      resolveD (ls.get ⟨i, h⟩).2.1 pa = some v ∧
      dget (merge_layers ls).2 (dotted_join pa) =
        some ⟨(ls.get ⟨i, h⟩).1, (ls.get ⟨i, h⟩).2.2, dotted_join pa⟩ ∧
      ∀ j, ∀ hj : j < ls.length, i < j →
        ∀ w, resolveD (ls.get ⟨j, hj⟩).2.1 pa = some w → w.isMap = true := by
  intro hG hpa hpane hres hv
  obtain ⟨i, h, h1, h2, h3⟩ := merge_layers_contrib ls pa v hG hpa hpane hres hv
  exact ⟨filter_count_one (merge_layers_nodup_meta ls) h2, i, h, h1, h2, h3⟩

/-- Concrete two-layer stack used to instantiate the provenance
invariant. -/
def demoLayers : List (String × Dict × Option String) :=
  [("app", [("a", .map [("x", .int 1)])], some "app.toml"),
   ("env", [("a", .map [("x", .int 2)])], none)]

theorem merge_provenance_scalar_paths_witness :
    ((merge_layers demoLayers).2.filter
        (fun kv => kv.1 == dotted_join ["a", "x"])).length = 1 ∧
    ∃ i, ∃ h : i < demoLayers.length,
      resolveD (demoLayers.get ⟨i, h⟩).2.1 ["a", "x"] = some (.int 2) ∧
      dget (merge_layers demoLayers).2 (dotted_join ["a", "x"]) =
        some ⟨(demoLayers.get ⟨i, h⟩).1, (demoLayers.get ⟨i, h⟩).2.2,
              dotted_join ["a", "x"]⟩ ∧
      ∀ j, ∀ hj : j < demoLayers.length, i < j →
        ∀ w, resolveD (demoLayers.get ⟨j, hj⟩).2.1 ["a", "x"] = some w →
          w.isMap = true := by
  refine merge_provenance_scalar_paths demoLayers ["a", "x"] (.int 2) ?_ ?_ ?_ ?_ rfl
  · intro L hL
    simp [demoLayers] at hL
    rcases hL with rfl | rfl
    · exact dGood_two_level "a" "x" (.int 1) (dotFree_dec (by decide))
        (dotFree_dec (by decide)) rfl
    · exact dGood_two_level "a" "x" (.int 2) (dotFree_dec (by decide))
        (dotFree_dec (by decide)) rfl
  · intro s hs
    simp at hs
    rcases hs with rfl | rfl
    · exact dotFree_dec (by decide)
    · exact dotFree_dec (by decide)
  · simp
  · have hm : merge_layers demoLayers =
        ([("a", Value.map [("x", Value.int 2)])],
         [("a.x", ⟨"env", none, "a.x"⟩)]) := by
      simp [demoLayers, merge_layers, merge_layer, merge_mapping, dget, dset, dpop,
        set_scalar, clear_branch, dotted_key, dotted_join, strStartsWith, isMappingOpt]
    rw [hm]
    rfl
